import Mathlib

set_option maxRecDepth 8000

/-!
Verification of `scripts/biorxiv_digest.py` against its natural-language
specification.  The Python functions are shallowly embedded as executable Lean
definitions over `String` / `List Char`; network and library boundaries
(`requests`, `json.loads`, `smtplib`) are modeled at their interface, exactly as
the specification treats them (external collaborators).
-/

/- ### Basic Python string primitives -/

/-- Whitespace characters recognised by Python's `str.strip` and `re`'s `\s`
(ASCII range; the additional Unicode whitespace accepted by Python does not
occur in any statement below). -/
def isPySpace (c : Char) : Bool :=
  c = ' ' || c = '\t' || c = '\n' || c = '\r' || c = '\x0b' || c = '\x0c'

/-- Left part of Python `str.strip()`. -/
def lstripL (l : List Char) : List Char := l.dropWhile isPySpace

/-- Right part of Python `str.strip()`. -/
def rstripL (l : List Char) : List Char := (l.reverse.dropWhile isPySpace).reverse

/-- Python `str.strip()` on a character list. -/
def pyStripL (l : List Char) : List Char := rstripL (lstripL l)

/-- Python `str.strip()`. -/
def pyStrip (s : String) : String := ⟨pyStripL s.data⟩

/- ### Decimal rendering (Python `str(int)` / f-string `{i:02d}`) -/

/-- The ASCII character of a decimal digit. -/
def digitChar (n : Nat) : Char := Char.ofNat (48 + n)

/-- Fuel-driven decimal digit emitter (structural, so kernel-evaluable). -/
def toDigitsAux : Nat → Nat → List Char → List Char
  | 0, _, acc => acc
  | fuel + 1, n, acc =>
    if n < 10 then digitChar n :: acc
    else toDigitsAux fuel (n / 10) (digitChar (n % 10) :: acc)

/-- Decimal rendering of a natural number, as Python's `str(n)`. -/
def natToChars (n : Nat) : List Char := toDigitsAux (n + 1) n []

/-- Decimal rendering of a natural number as a `String`. -/
def natToStr (n : Nat) : String := ⟨natToChars n⟩

/-- Decimal rendering of a Python integer. -/
def intToStr (n : Int) : String :=
  if n < 0 then ⟨'-' :: natToChars n.natAbs⟩ else ⟨natToChars n.toNat⟩

/-- Python `f"P{i:02d}"`: the identifier assigned to the paper with 1-based
rank `i` (zero-padded to two digits, wider numbers rendered unpadded). -/
def pidFor (i : Nat) : String :=
  ⟨'P' :: (if i < 10 then '0' :: natToChars i else natToChars i)⟩

/- ### Python `int(str)` with failure -/

/-- The value of a nonempty all-digit character list. -/
def digitsVal (ds : List Char) : Option Nat :=
  if ds.isEmpty then none
  else if ds.all (fun c => c.isDigit) then
    some (ds.foldl (fun a c => a * 10 + (c.toNat - 48)) 0)
  else none

/-- Python `int(s)` for a string `s`: surrounding whitespace is tolerated
(which is why the source's `.strip()` on one of the two version-parsing paths
and its absence on the other are equivalent), an optional sign, then ASCII
digits.  (Digit-grouping underscores and non-ASCII digits are not modeled.) -/
def pyInt? (s : String) : Option Int :=
  match pyStripL s.data with
  | '-' :: ds => (digitsVal ds).map (fun n => -(n : Int))
  | '+' :: ds => (digitsVal ds).map (fun n => (n : Int))
  | ds => (digitsVal ds).map (fun n => (n : Int))

/- ### Catalog records and deduplication (`dedupe_keep_latest_version`) -/

/-- A raw catalog record.  The source reads records as untyped dicts and
coerces each used field with `str(row.get(key, ""))`; a record is therefore
modeled by the seven string fields the program reads, with `""` standing for
an absent key. -/
structure Row where
  title : String
  doi : String
  version : String
  date : String
  category : String
  authors : String
  abstract : String
deriving DecidableEq

/-- The effective version number used by `dedupe_keep_latest_version`:
`int(version)` with `-1` on any parse failure (both the `v_raw` path and the
`existing_v` path of the source compute exactly this, since Python's `int`
ignores surrounding whitespace). -/
def effV (r : Row) : Int := (pyInt? r.version).getD (-1)

/-- Lookup in an insertion-ordered association list (Python dict membership /
item access). -/
def lookupA (d : String) : List (String × Row) → Option Row
  | [] => none
  | (k, v) :: rest => if k = d then some v else lookupA d rest

/-- In-place value update of an insertion-ordered association list
(Python `dict[k] = v` for a present key: position preserved). -/
def updateA (d : String) (r : Row) : List (String × Row) → List (String × Row)
  | [] => []
  | (k, v) :: rest => if k = d then (k, r) :: rest else (k, v) :: updateA d r rest

/-- The loop of `dedupe_keep_latest_version` (lines 100-121): `best` is the
insertion-ordered dict from stripped DOI to the best record seen so far. -/
def dedupeGo : List (String × Row) → List Row → List (String × Row)
  | best, [] => best
  | best, row :: rest =>
    let doi := pyStrip row.doi
    if doi = "" then dedupeGo best rest
    else
      match lookupA doi best with
      | none => dedupeGo (best ++ [(doi, row)]) rest
      | some existing =>
        if effV row > effV existing then dedupeGo (updateA doi row best) rest
        else dedupeGo best rest

/-- `dedupe_keep_latest_version`: keep the highest version per DOI, returning
`list(best.values())` in dict insertion order. -/
def dedupe_keep_latest_version (rows : List Row) : List Row :=
  (dedupeGo [] rows).map Prod.snd

/-- One comparison step of the dedupe loop, abstracted over an optional
current best (used to state the loop invariant). -/
def pick : Option Row → Row → Option Row
  | none, r => some r
  | some b, r => if effV r > effV b then some r else some b

/-- Folding `pick` over a group of records sharing one DOI. -/
def pickOpt (l : List Row) : Option Row := l.foldl pick none

/-- The records of `rows` whose stripped DOI is `d`. -/
def rowsWithDoi (d : String) (rows : List Row) : List Row :=
  rows.filter (fun r => pyStrip r.doi == d)

/-- The maximum effective version of a nonempty group (specification-side
notion used to state the dedupe claim). -/
def maxEff : List Row → Int
  | [] => -1
  | r :: rs => rs.foldl (fun m x => max m (effV x)) (effV r)

/- ### Sorting and enumeration (`load_recent_papers`, lines 156-176) -/

/-- Python string `<=`: lexicographic comparison by Unicode code point. -/
def pyLe : List Char → List Char → Bool
  | [], _ => true
  | _ :: _, [] => false
  | a :: as, b :: bs =>
    if a.toNat < b.toNat then true
    else if b.toNat < a.toNat then false
    else pyLe as bs

/-- Stable descending (by raw `date` field) insertion used to model
`rows.sort(key=lambda r: str(r.get("date", "")), reverse=True)`: a new element
is placed after every existing element whose date is at least its own, so
equal keys keep first-occurrence order exactly as Python's stable sort does. -/
def insertByDateDesc (r : Row) : List Row → List Row
  | [] => [r]
  | x :: xs =>
    if pyLe r.date.data x.date.data then x :: insertByDateDesc r xs
    else r :: x :: xs

/-- `rows.sort(key=date, reverse=True)` as a stable insertion sort. -/
def sortByDateDesc (rows : List Row) : List Row :=
  rows.foldl (fun acc r => insertByDateDesc r acc) []

/-- The immutable `Paper` dataclass. -/
structure Paper where
  pid : String
  title : String
  doi : String
  version : String
  date : String
  category : String
  authors : String
  abstract : String
deriving DecidableEq

/-- `Paper.biorxiv_url` (Python truthiness of a string is nonemptiness). -/
def Paper.biorxiv_url (p : Paper) : String :=
  if p.doi ≠ "" ∧ p.version ≠ "" then
    "https://www.biorxiv.org/content/" ++ p.doi ++ "v" ++ p.version
  else if p.doi ≠ "" then "https://doi.org/" ++ p.doi
  else ""

/-- Construction of one `Paper` from a catalog record at 1-based rank `i`
(every field passes through `str(...).strip()`). -/
def mkPaper (i : Nat) (r : Row) : Paper :=
  ⟨pidFor i, pyStrip r.title, pyStrip r.doi, pyStrip r.version, pyStrip r.date,
   pyStrip r.category, pyStrip r.authors, pyStrip r.abstract⟩

/-- Python `enumerate(rows, start=i)` mapped through `mkPaper`. -/
def enumFrom (i : Nat) : List Row → List Paper
  | [] => []
  | r :: rs => mkPaper i r :: enumFrom (i + 1) rs

/-- The pure tail of `load_recent_papers` (lines 156-176): deduplicate,
sort newest-first by raw date string, then assign `P01, P02, ...`. -/
def rows_to_papers (rows : List Row) : List Paper :=
  enumFrom 1 (sortByDateDesc (dedupe_keep_latest_version rows))

/- ### The AI-bound subset (`main`, line 447) -/

/-- `papers[: max(10, min(max_for_ai, len(papers)))]`. -/
def papersForAi (papers : List Paper) (maxForAi : Int) : List Paper :=
  papers.take (max 10 (min maxForAi (papers.length : Int))).toNat

/- ### Clipping (`build_ai_prompt.clip`, lines 228-230) -/

/-- `re.sub(r"\s+", " ", s)` via a previous-was-whitespace accumulator:
every maximal whitespace run becomes a single space. -/
def collapseWsAux : Bool → List Char → List Char
  | _, [] => []
  | prevWs, c :: cs =>
    if isPySpace c then
      if prevWs then collapseWsAux true cs else ' ' :: collapseWsAux true cs
    else c :: collapseWsAux false cs

/-- `re.sub(r"\s+", " ", s)`. -/
def collapseWs (l : List Char) : List Char := collapseWsAux false l

/-- `clip` from `build_ai_prompt`:
`s = re.sub(r"\s+", " ", s).strip(); return s[:n] + ("…" if len(s) > n else "")`. -/
def clip (s : String) (n : Nat) : String :=
  let t := pyStripL (collapseWs s.data)
  ⟨t.take n ++ (if n < t.length then "…".data else [])⟩

/- ### Pagination (`load_recent_papers`, lines 129-154) -/

/-- One page of the catalog API, at the `normalize_collection` / `parse_total`
interface: the records under the `collection` key and the advertised total
from `messages[0].total` when supplied. -/
structure PageResp where
  collection : List Row
  total : Option Nat

/-- The `while True` pagination loop of `load_recent_papers`, with the remote
call abstracted as `api : cursor ↦ page` and an explicit fuel bound (the
source loop has no intrinsic termination guarantee when the API keeps
returning full pages and no total).  Returns the accumulated rows together
with the list of cursors actually fetched. -/
def fetchLoop (api : Nat → PageResp) :
    Nat → Nat → Option Nat → List Row → List Nat → List Row × List Nat
  | 0, _, _, acc, visited => (acc, visited)
  | fuel + 1, cursor, total, acc, visited =>
    let rows := (api cursor).collection
    if rows.isEmpty then (acc, visited ++ [cursor])
    else
      let acc2 := acc ++ rows
      let total2 := match total with
        | none => (api cursor).total
        | some t => some t
      let cursor2 := cursor + rows.length
      if rows.length < 100 then (acc2, visited ++ [cursor])
      else
        match total2 with
        | some t =>
          if t ≤ cursor2 then (acc2, visited ++ [cursor])
          else fetchLoop api fuel cursor2 total2 acc2 (visited ++ [cursor])
        | none => fetchLoop api fuel cursor2 total2 acc2 (visited ++ [cursor])

/-- The whole paging phase of `load_recent_papers`: cursor 0, no total yet. -/
def load_recent_papers_pages (api : Nat → PageResp) (fuel : Nat) :
    List Row × List Nat :=
  fetchLoop api fuel 0 none [] []

/-- An anonymous catalog record, for concrete pagination scenarios. -/
def rowStub : Row := ⟨"", "", "", "", "", "", ""⟩

/-- A catalog whose every page is empty. -/
def apiEmpty : Nat → PageResp := fun _ => ⟨[], none⟩

/-- A catalog advertising `total = 150` and answering every cursor with a full
page of 100 records. -/
def api150 : Nat → PageResp := fun _ => ⟨List.replicate 100 rowStub, some 150⟩

/- ### JSON extraction (`extract_json`, lines 212-224) -/

/-- Boolean list-prefix test (used to model `re` anchors and
`str.startswith`). -/
def prefixOfB : List Char → List Char → Bool
  | [], _ => true
  | _ :: _, [] => false
  | a :: as, b :: bs => a == b && prefixOfB as bs

/-- `re.sub(r"^```(?:json)?\s*", "", cleaned)`: one anchored substitution
removing a leading fence marker, its optional `json` tag, and following
whitespace. -/
def stripFenceStart (l : List Char) : List Char :=
  if prefixOfB "```json".data l then lstripL (l.drop 7)
  else if prefixOfB "```".data l then lstripL (l.drop 3)
  else l

/-- `re.sub(r"\s*```$", "", cleaned)`: since the input was already stripped of
trailing whitespace, `$` can only match at the very end, so this removes a
trailing fence marker and the whitespace before it. -/
def stripFenceEnd (l : List Char) : List Char :=
  if prefixOfB "```".data.reverse l.reverse then rstripL (l.take (l.length - 3))
  else l

/-- `re.search(r"\{.*\}", cleaned, flags=re.DOTALL)`: the leftmost match of a
greedy brace-delimited span runs from the first `\x7b` (provided some `\x7d`
follows it) to the last `\x7d` of the whole text. -/
def braceSpan (l : List Char) : Option (List Char) :=
  let pre := l.dropWhile (fun c => c != '\x7b')
  let span := (pre.reverse.dropWhile (fun c => c != '\x7d')).reverse
  if span.isEmpty then none else some span

/-- The fence-stripped, whitespace-stripped text `cleaned` of `extract_json`. -/
def cleanedOf (text : List Char) : List Char :=
  stripFenceEnd (stripFenceStart (pyStripL text))

/-- `extract_json` with `json.loads` abstracted as `loads` (a standard-library
boundary): `none` models a raised `ValueError`/`JSONDecodeError`. -/
def extract_json {J : Type} (loads : List Char → Option J) (text : List Char) :
    Option J :=
  let cleaned := cleanedOf text
  if cleaned.head? = some '\x7b' ∧ cleaned.getLast? = some '\x7d' then loads cleaned
  else
    match braceSpan cleaned with
    | none => none
    | some span => loads span

/-- `true` iff the text contains a `\x7b` with a `\x7d` somewhere after it —
exactly when `re.search(r"\{.*\}", ..., re.DOTALL)` can match. -/
def hasBracePair : List Char → Bool
  | [] => false
  | c :: cs => (c = '\x7b' && cs.contains '\x7d') || hasBracePair cs

/-- A concrete stand-in for `json.loads` used in closed instances below. -/
def loadsLen : List Char → Option Nat := fun l => some l.length

/- ### HTML escaping and rendering (`build_email_html`, lines 265-331) -/

/-- Per-character form of Python `html.escape(s)` (quote=True): the sequential
replacements of the library function touch each source character once, so the
function is the concatenation of these per-character expansions. -/
def escChar (c : Char) : List Char :=
  if c = '&' then "&amp;".data
  else if c = '<' then "&lt;".data
  else if c = '>' then "&gt;".data
  else if c = '"' then "&quot;".data
  else if c = '\'' then "&#x27;".data
  else [c]

/-- `esc` from `build_email_html`: `html.escape(s or "")` (for a string
argument, `s or ""` is the identity on nonempty strings and `""` otherwise,
hence the identity). -/
def esc (s : String) : String := ⟨s.data.flatMap escChar⟩

/-- Boolean substring occurrence test. -/
def containsSub (p : List Char) : List Char → Bool
  | [] => p.isEmpty
  | l@(_ :: t) => prefixOfB p l || containsSub p t

/-- One entry of the parsed `top_papers` list: the source reads
`entry.get("id", "")` and `entry.get("summary", "")` and coerces both through
`str(...)`, so an entry is modeled by those two strings. -/
structure TopEntry where
  id : String
  summary : String
deriving DecidableEq

/-- The per-paper block of `build_email_html` (the triple-quoted f-string of
lines 279-289, after its `.strip()`). -/
def itemHtml (idx : Nat) (one_liner : String) (p : Paper) : String :=
  let url := if p.biorxiv_url ≠ "" then p.biorxiv_url
             else if p.doi ≠ "" then "https://doi.org/" ++ p.doi else ""
  "<div style=\"margin: 0 0 18px 0;\">\n              <h3 style=\"margin: 0 0 6px 0;\">"
    ++ natToStr idx ++ ". <a href=\"" ++ esc url ++ "\">" ++ esc p.title
    ++ "</a></h3>\n              <div style=\"font-size: 13px; color: #333;\">\n                <div><b>Authors:</b> "
    ++ esc p.authors
    ++ "</div>\n                <div><b>Category:</b> " ++ esc p.category
    ++ " &nbsp; <b>Date:</b> " ++ esc p.date ++ " &nbsp; <b>DOI:</b> "
    ++ esc p.doi ++ "v" ++ esc p.version
    ++ "</div>\n              </div>\n              <p style=\"margin: 8px 0 6px 0;\"><b>AI Summary:</b> "
    ++ esc one_liner
    ++ "</p>\n              <p style=\"margin: 0;\"><b>Abstract:</b><br/>"
    ++ esc p.abstract ++ "</p>\n            </div>"

/-- A rendered `<li>` bullet list: `"".join(f"<li>{esc(t)}</li>" for t in ts
if str(t).strip())`. -/
def bulletLis (ts : List String) : String :=
  String.join ((ts.filter (fun t => pyStrip t != "")).map
    (fun t => "<li>" ++ esc t ++ "</li>"))

/-- `build_email_html`.  `now_local.strftime(...)` results are taken as the
two string inputs `dateStr`/`timeStr`; the dict `id_to_paper` built in `main`
from papers with pairwise distinct identifiers is modeled by `find?` over the
paper list.  The numbering index advances over skipped (unknown-identifier)
entries exactly as Python's `enumerate` does. -/
def build_email_html (dateStr timeStr : String) (top : List TopEntry)
    (papers : List Paper) (trends general_concept specific_concept : List String)
    (general_topic : String) : String :=
  let items := (top.enum).filterMap (fun e =>
    let pid := pyStrip e.2.id
    match papers.find? (fun p => p.pid == pid) with
    | none => none
    | some p => some (itemHtml (e.1 + 1) (pyStrip e.2.summary) p))
  "<html>\n      <body style=\"font-family: Arial, sans-serif; line-height: 1.35;\">\n        <h2 style=\"margin: 0 0 8px 0;\">bioRxiv daily digest — "
    ++ esc dateStr
    ++ "</h2>\n        <div style=\"color:#555; font-size: 12px; margin-bottom: 16px;\">\n          Generated at "
    ++ esc timeStr
    ++ " (America/Toronto)\n        </div>\n\n        "
    ++ String.join items
    ++ "\n\n        <hr style=\"margin: 22px 0;\" />\n        <h3 style=\"margin: 0 0 8px 0;\">General Trends</h3>\n        <ul style=\"margin: 0; padding-left: 18px;\">\n          "
    ++ bulletLis trends
    ++ "\n        </ul>\n\n        <hr style=\"margin: 22px 0;\" />\n        <h3 style=\"margin: 0 0 8px 0;\">General Concept: "
    ++ esc general_topic
    ++ "</h3>\n        <ul style=\"margin: 0; padding-left: 18px;\">\n          "
    ++ bulletLis general_concept
    ++ "\n        </ul>\n\n        <hr style=\"margin: 22px 0;\" />\n        <h3 style=\"margin: 0 0 8px 0;\">Specific Concept</h3>\n        <ul style=\"margin: 0; padding-left: 18px;\">\n          "
    ++ bulletLis specific_concept
    ++ "\n        </ul>\n\n        <div style=\"margin-top: 18px; color:#777; font-size: 12px;\">\n          Automated via GitHub Actions + Gemini + bioRxiv API.\n        </div>\n      </body>\n    </html>"

/-- A paper whose every free-text field attempts markup injection. -/
def hostilePaper : Paper :=
  ⟨"P01", "<script>alert('x')</script>", "10.1101/2024.01.01.000001", "2",
   "2024-01-01", "cat<script>", "Doe J<script>", "abstract <script>bad</script> end"⟩

/- ### Parsed JSON values and response validation (`main`, lines 458-469) -/

/-- A parsed JSON value as produced by `json.loads` (numbers restricted to the
integers, which is all the validated fields can meaningfully carry; floats
play no role in the validation logic being verified). -/
inductive JVal where
  | jnull : JVal
  | jbool : Bool → JVal
  | jnum : Int → JVal
  | jstr : String → JVal
  | jarr : List JVal → JVal
  | jobj : List (String × JVal) → JVal

/-- `d.get(key, dflt)` on a parsed JSON object; as in `json.loads`, a
duplicated key keeps its last occurrence. -/
def dget (kvs : List (String × JVal)) (key : String) (dflt : JVal) : JVal :=
  (kvs.foldl (fun acc kv => if kv.1 == key then some kv.2 else acc) none).getD dflt

/-- Python `isinstance(v, list)` on a parsed JSON value. -/
def JVal.isArr : JVal → Bool
  | .jarr _ => true
  | _ => false

/-- Escaping inside Python `repr` of a string (backslash and quote; the rarer
control-character escapes of full `repr` are not modeled — no statement below
evaluates them). -/
def reprEscape (s : String) : String :=
  ⟨s.data.flatMap (fun c =>
    if c = '\\' then ['\\', '\\']
    else if c = '\'' then ['\\', '\''] else [c])⟩

mutual
/-- Python `repr` of a parsed JSON value. -/
def pyRepr : JVal → String
  | .jnull => "None"
  | .jbool true => "True"
  | .jbool false => "False"
  | .jnum n => intToStr n
  | .jstr s => "'" ++ reprEscape s ++ "'"
  | .jarr xs => "[" ++ String.intercalate ", " (pyReprL xs) ++ "]"
  | .jobj kvs => "\x7b" ++ String.intercalate ", " (pyReprKVs kvs) ++ "\x7d"

/-- `repr` of the elements of a parsed JSON array. -/
def pyReprL : List JVal → List String
  | [] => []
  | v :: vs => pyRepr v :: pyReprL vs

/-- `repr` of the items of a parsed JSON object. -/
def pyReprKVs : List (String × JVal) → List String
  | [] => []
  | (k, v) :: rest => ("'" ++ reprEscape k ++ "': " ++ pyRepr v) :: pyReprKVs rest
end

/-- Python `str` of a parsed JSON value (`str` of a `str` is itself; any other
value renders through `repr`). -/
def pyStr : JVal → String
  | .jstr s => s
  | v => pyRepr v

/-- The validated selection result built by `main` after `extract_json`. -/
structure AiParsed where
  top_papers : List JVal
  trends : List JVal
  general_concept : JVal
  specific_concept : JVal

/-- Lines 458-469 of `main`: read the four fields with list defaults, raise
(`none`) iff `top_papers` is not a list, coerce a non-list `general_trends`
to `[str(trends)]`, and truncate `top_papers` to its first 5 entries. -/
def validateAi (kvs : List (String × JVal)) : Option AiParsed :=
  let tp := dget kvs "top_papers" (JVal.jarr [])
  let tr := dget kvs "general_trends" (JVal.jarr [])
  let gc := dget kvs "general_concept" (JVal.jarr [])
  let sc := dget kvs "specific_concept" (JVal.jarr [])
  match tp with
  | JVal.jarr xs =>
    some ⟨xs.take 5,
      (match tr with
       | JVal.jarr ys => ys
       | other => [JVal.jstr (pyStr other)]),
      gc, sc⟩
  | _ => none

/- ### Recipient parsing and mail dispatch (lines 333-425) -/

/-- Splitting a character list at every separator character (`re.split` with a
one-character-class pattern; the source's `[;,]+` collapses separator runs,
which differs only by empty segments that the caller drops anyway). -/
def splitOn (isSep : Char → Bool) : List Char → List Char → List (List Char)
  | cur, [] => [cur.reverse]
  | cur, c :: cs =>
    if isSep c then cur.reverse :: splitOn isSep [] cs
    else splitOn isSep (c :: cur) cs

/-- `_parse_recipients` (lines 333-341): split on commas/semicolons, strip,
drop empties. -/
def _parse_recipients (raw : String) : List String :=
  ((splitOn (fun c => c == ',' || c == ';') [] raw.data).map
      (fun l => (⟨pyStripL l⟩ : String))).filter (fun s => s != "")

/-- The outbound message as handed to the SMTP session: the headers that were
set on the `EmailMessage`, and the envelope recipient list actually used for
delivery. -/
structure OutMsg where
  subject : String
  sender : String
  toHeader : String
  ccHeader : Option String
  rcpts : List String
deriving DecidableEq

/-- The address list that `smtplib.send_message` derives from a message's
address headers when no explicit `to_addrs` is given, for a message whose only
recipient header is `To` (comma-separated addresses, surrounding whitespace
trimmed). -/
def headerAddresses (h : String) : List String :=
  ((splitOn (fun c => c == ',') [] h.data).map
      (fun l => (⟨pyStripL l⟩ : String))).filter (fun s => s != "")

/-- The FIRST definition of `send_email` (lines 343-399), immediately shadowed
by the second: parses To/Cc/Bcc lists, requires a nonempty To (`none` models
the raised `ValueError`), sets To and (when nonempty) Cc headers, never a Bcc
header, and passes the concatenated three lists as explicit envelope
recipients. -/
def send_email_shadowed (subject emailToRaw emailCcRaw emailBccRaw emailFrom :
    String) : Option OutMsg :=
  let to_list := _parse_recipients emailToRaw
  let cc_list := if emailCcRaw ≠ "" then _parse_recipients emailCcRaw else []
  let bcc_list := if emailBccRaw ≠ "" then _parse_recipients emailBccRaw else []
  if to_list.isEmpty then none
  else
    some ⟨subject, emailFrom, String.intercalate ", " to_list,
      (if cc_list.isEmpty then none else some (String.intercalate ", " cc_list)),
      to_list ++ cc_list ++ bcc_list⟩

/-- The SECOND, effective definition of `send_email` (lines 402-425): it reads
neither `EMAIL_CC` nor `EMAIL_BCC` (the parameters are accepted here only to
exhibit that), sets the raw `EMAIL_TO` string as the To header, and calls
`send_message(msg)` with no explicit recipients, so delivery goes to the
To-header addresses alone. -/
def send_email (subject emailToRaw _emailCcRaw _emailBccRaw emailFrom : String) :
    OutMsg :=
  ⟨subject, emailFrom, emailToRaw, none, headerAddresses emailToRaw⟩

/- ### Concrete fixtures for closed instances -/

/-- A record with DOI `10.1101/x` at version 1. -/
def rowV1 : Row := ⟨"t1", "10.1101/x", "1", "2024-01-01", "", "", ""⟩

/-- A later version of the same DOI. -/
def rowV2 : Row := ⟨"t2", "10.1101/x", "2", "2024-01-02", "", "", ""⟩

/-- A record with a clean ISO date. -/
def rowD1 : Row := ⟨"t1", "10.1101/a", "1", "2024-01-01", "", "", ""⟩

/-- A record whose date carries a leading space: it sorts as smaller than any
digit-initial date under the raw-string sort key. -/
def rowD2 : Row := ⟨"t2", "10.1101/b", "1", " 2024-02-02", "", "", ""⟩

/-- A record with a whitespace-only DOI. -/
def rowEmptyDoi : Row := ⟨"t0", "  ", "1", "2024-03-03", "", "", ""⟩

/-- The rendered digest for a run whose every user/LLM-supplied string
attempts `<script>` injection. -/
def hostileDoc : String :=
  build_email_html "2025-01-01" "2025-01-01 08:00 EST"
    [⟨"P01", "<script>sum</script>"⟩] [hostilePaper]
    ["<script>t</script>"] ["<script>g</script>"] ["<script>c</script>"]
    "<script>topic</script>"

/-- Seven entries for a `top_papers` array (more than the 5 kept). -/
def xsW : List JVal :=
  [JVal.jnum 1, JVal.jnum 2, JVal.jnum 3, JVal.jnum 4, JVal.jnum 5,
   JVal.jnum 6, JVal.jnum 7]

/-- A parsed response with a 7-element `top_papers` and a non-list
`general_trends`. -/
def kvsW : List (String × JVal) :=
  [("top_papers", JVal.jarr xsW), ("general_trends", JVal.jstr "t")]

/-- A parsed response whose `top_papers` is not list-shaped. -/
def kvsBad : List (String × JVal) := [("top_papers", JVal.jstr "no")]

/-- The validated result expected for `kvsW`. -/
def resW : AiParsed :=
  ⟨xsW.take 5, [JVal.jstr "t"], JVal.jarr [], JVal.jarr []⟩

/- ### Claim C9: the AI-bound cap is floored at 10 -/

/-- Claim C9: the prompt receives the first `min(len(papers), max(10, m))`
papers for every paper list and configured cap `m`; a cap below 10 still
allows up to 10 papers, and when at most 10 papers are available all of them
are sent. -/
theorem claim_C9 (papers : List Paper) (m : Int) :
    papersForAi papers m = papers.take (min papers.length (max 10 m).toNat) ∧
    (papers.length ≤ 10 → papersForAi papers m = papers) ∧
    (m ≤ 10 → papersForAi papers m = papers.take (min papers.length 10)) := by
  refine ⟨?_, fun h => ?_, fun h => ?_⟩
  · rw [papersForAi, List.take_eq_take]
    omega
  · rw [papersForAi]
    apply List.take_of_length_le
    omega
  · rw [papersForAi, List.take_eq_take]
    omega

/-- Witness for C9 at a concrete one-element paper list and cap 3. -/
theorem claim_C9_witness :
    papersForAi [hostilePaper] 3 = [hostilePaper] :=
  (claim_C9 [hostilePaper] 3).2.1 (by decide)

/- ### Claim C1: Bcc handling of the mail-dispatch routine -/

/-- Claim C1 concerns the transmission of Bcc recipients.  The effective
mail-dispatch routine (the second `send_email` definition, which shadows the
first) never reads `EMAIL_BCC`: with `EMAIL_TO=a@x.com` and
`EMAIL_BCC=b@y.com` it delivers to `a@x.com` alone, contradicting the claim.
The shadowed first definition behaves exactly as the claim states: envelope
recipients are the To/Cc/Bcc union while no header carries the Bcc list. -/
theorem claim_C1 :
    send_email "s" "a@x.com" "" "b@y.com" "f@x.com"
      = ⟨"s", "f@x.com", "a@x.com", none, ["a@x.com"]⟩ ∧
    "b@y.com" ∉ (send_email "s" "a@x.com" "" "b@y.com" "f@x.com").rcpts ∧
    send_email_shadowed "s" "a@x.com" "" "b@y.com" "f@x.com"
      = some ⟨"s", "f@x.com", "a@x.com", none, ["a@x.com", "b@y.com"]⟩ := by
  exact ⟨by decide, by decide, by decide⟩

/- ### Claim C3: the dual stopping condition of the pagination loop -/

/-- Claim C3: the loop stops immediately on an empty page (whatever the total
state), stops after any page smaller than 100 rows, stops once a known total
is reached by the advanced cursor, and fetches exactly the two cursors 0 and
100 against a catalog advertising `total = 150` with full pages of 100. -/
theorem claim_C3 (api : Nat → PageResp) :
    (∀ fuel cursor total acc visited, (api cursor).collection = [] →
        fetchLoop api (fuel + 1) cursor total acc visited
          = (acc, visited ++ [cursor])) ∧
    (∀ fuel cursor total acc visited, (api cursor).collection ≠ [] →
        (api cursor).collection.length < 100 →
        fetchLoop api (fuel + 1) cursor total acc visited
          = (acc ++ (api cursor).collection, visited ++ [cursor])) ∧
    (∀ fuel cursor t acc visited, (api cursor).collection ≠ [] →
        ¬ (api cursor).collection.length < 100 →
        t ≤ cursor + (api cursor).collection.length →
        fetchLoop api (fuel + 1) cursor (some t) acc visited
          = (acc ++ (api cursor).collection, visited ++ [cursor])) ∧
    (api = api150 → (load_recent_papers_pages api 10).2 = [0, 100]) := by
  refine ⟨?_, ?_, ?_, ?_⟩
  · intro fuel cursor total acc visited h
    simp [fetchLoop, h]
  · intro fuel cursor total acc visited h h100
    have hne : (api cursor).collection.isEmpty = false := by
      simpa [List.isEmpty_iff] using h
    simp [fetchLoop, hne, h100]
  · intro fuel cursor t acc visited h h100 htot
    have hne : (api cursor).collection.isEmpty = false := by
      simpa [List.isEmpty_iff] using h
    simp [fetchLoop, hne, h100, htot]
  · intro h
    subst h
    decide

/-- Witness for C3: the empty catalog stops after one page, and the
`total = 150` catalog with full pages fetches exactly cursors 0 and 100. -/
theorem claim_C3_witness :
    fetchLoop apiEmpty 5 0 none [] [] = ([], [0]) ∧
    (load_recent_papers_pages api150 10).2 = [0, 100] :=
  ⟨(claim_C3 apiEmpty).1 4 0 none [] [] rfl, (claim_C3 api150).2.2.2 rfl⟩

/- ### Claim C8: clipping -/

/-- Claim C8: after whitespace collapsing (and the stripping its composition
with `.strip()` performs), a string longer than `n` is cut to exactly its
first `n` characters plus one ellipsis marker, and a string of length at most
`n` is returned unchanged. -/
theorem claim_C8 (s : String) (n : Nat) :
    (n < (pyStripL (collapseWs s.data)).length →
       clip s n = ⟨(pyStripL (collapseWs s.data)).take n ++ "…".data⟩ ∧
       (clip s n).data.length = n + 1) ∧
    ((pyStripL (collapseWs s.data)).length ≤ n →
       clip s n = ⟨pyStripL (collapseWs s.data)⟩) ∧
    (pyStripL (collapseWs s.data) = s.data → s.data.length ≤ n →
       clip s n = s) := by
  refine ⟨fun h => ⟨?_, ?_⟩, fun h => ?_, fun h1 h2 => ?_⟩
  · simp [clip, h]
  · simp [clip, h, Nat.min_eq_left (Nat.le_of_lt h)]
  · simp [clip, List.take_of_length_le h, Nat.not_lt.mpr h]
  · have : clip s n = ⟨pyStripL (collapseWs s.data)⟩ := by
      simp [clip, List.take_of_length_le (h1 ▸ h2), Nat.not_lt.mpr (h1 ▸ h2)]
    rw [this, h1]

/-- Witness for C8: a 1000-character abstract clipped to 900 has exactly 901
characters (900 visible plus the marker); a 50-character abstract is
unchanged. -/
theorem claim_C8_witness :
    (clip ⟨List.replicate 1000 'a'⟩ 900).data.length = 900 + 1 ∧
    clip ⟨List.replicate 50 'b'⟩ 900 = ⟨List.replicate 50 'b'⟩ :=
  ⟨((claim_C8 ⟨List.replicate 1000 'a'⟩ 900).1 (by decide)).2,
   (claim_C8 ⟨List.replicate 50 'b'⟩ 900).2.2 (by decide) (by decide)⟩

/- ### Claim C2: deduplication keeps the first-occurring maximal version -/

theorem le_foldl_maxEff (rs : List Row) (m : Int) :
    m ≤ rs.foldl (fun a x => max a (effV x)) m := by
  induction rs generalizing m with
  | nil => exact le_refl m
  | cons r rs ih => exact le_trans (le_max_left m (effV r)) (ih (max m (effV r)))

theorem foldl_pick_find (rs : List Row) (b : Row) :
    rs.foldl pick (some b)
      = (b :: rs).find?
          (fun x => effV x == rs.foldl (fun m y => max m (effV y)) (effV b)) := by
  induction rs generalizing b with
  | nil => simp [List.find?]
  | cons r rs ih =>
    by_cases hc : effV r > effV b
    · have hmax : max (effV b) (effV r) = effV r := max_eq_right (le_of_lt hc)
      have hM : (r :: rs).foldl (fun m y => max m (effV y)) (effV b)
          = rs.foldl (fun m y => max m (effV y)) (effV r) := by
        rw [List.foldl_cons, hmax]
      have hbneg :
          ¬ (effV b == rs.foldl (fun m y => max m (effV y)) (effV r)) = true := by
        have h1 := le_foldl_maxEff rs (effV r)
        have : effV b ≠ rs.foldl (fun m y => max m (effV y)) (effV r) := by omega
        simpa using this
      have hpick : pick (some b) r = some r := by simp [pick, hc]
      have hbf : (effV b == rs.foldl (fun m y => max m (effV y)) (effV r)) = false :=
        eq_false_of_ne_true hbneg
      calc (r :: rs).foldl pick (some b)
          = rs.foldl pick (some r) := by rw [List.foldl_cons, hpick]
        _ = (r :: rs).find?
              (fun x => effV x == rs.foldl (fun m y => max m (effV y)) (effV r)) :=
            ih r
        _ = (b :: r :: rs).find?
              (fun x => effV x == rs.foldl (fun m y => max m (effV y)) (effV r)) := by
            conv_rhs => rw [List.find?_cons]
            rw [hbf]
        _ = (b :: r :: rs).find?
              (fun x => effV x ==
                (r :: rs).foldl (fun m y => max m (effV y)) (effV b)) := by
            rw [hM]
    · have hle : effV r ≤ effV b := not_lt.mp hc
      have hmax : max (effV b) (effV r) = effV b := max_eq_left hle
      have hM : (r :: rs).foldl (fun m y => max m (effV y)) (effV b)
          = rs.foldl (fun m y => max m (effV y)) (effV b) := by
        rw [List.foldl_cons, hmax]
      have hpick : pick (some b) r = some b := by simp [pick, hc]
      have hL : (r :: rs).foldl pick (some b) = rs.foldl pick (some b) := by
        rw [List.foldl_cons, hpick]
      rw [hL, ih b, hM]
      by_cases hb : (effV b == rs.foldl (fun m y => max m (effV y)) (effV b)) = true
      · rw [List.find?_cons, List.find?_cons, hb]
      · have hbf : (effV b == rs.foldl (fun m y => max m (effV y)) (effV b)) = false :=
          eq_false_of_ne_true hb
        have hbne : effV b ≠ rs.foldl (fun m y => max m (effV y)) (effV b) := by
          simpa using hb
        have h1 := le_foldl_maxEff rs (effV b)
        have hrf :
            (effV r == rs.foldl (fun m y => max m (effV y)) (effV b)) = false := by
          have : effV r ≠ rs.foldl (fun m y => max m (effV y)) (effV b) := by omega
          simpa using this
        rw [List.find?_cons, List.find?_cons, hbf]
        rw [List.find?_cons, hrf]

theorem foldl_pick_isSome (rs : List Row) (b : Row) :
    (rs.foldl pick (some b)).isSome := by
  induction rs generalizing b with
  | nil => rfl
  | cons r rs ih =>
    rw [List.foldl_cons]
    by_cases hc : effV r > effV b
    · simpa [pick, hc] using ih r
    · simpa [pick, hc] using ih b

theorem pickOpt_cons_find (b : Row) (rs : List Row) :
    pickOpt (b :: rs) = (b :: rs).find? (fun r => effV r == maxEff (b :: rs)) := by
  rw [pickOpt, List.foldl_cons]
  exact foldl_pick_find rs b

theorem pickOpt_cons_isSome (b : Row) (rs : List Row) :
    (pickOpt (b :: rs)).isSome := by
  rw [pickOpt, List.foldl_cons]
  exact foldl_pick_isSome rs b

theorem rowsWithDoi_append_single (d : String) (row : Row) (pre : List Row) :
    rowsWithDoi d (pre ++ [row])
      = rowsWithDoi d pre ++ (if pyStrip row.doi == d then [row] else []) := by
  rw [rowsWithDoi, rowsWithDoi, List.filter_append]
  congr 1
  by_cases h : (pyStrip row.doi == d) = true
  · simp [List.filter, h]
  · simp [List.filter, eq_false_of_ne_true h]

theorem pickOpt_append_single (l : List Row) (r : Row) :
    pickOpt (l ++ [r]) = pick (pickOpt l) r := by
  rw [pickOpt, pickOpt, List.foldl_append, List.foldl_cons, List.foldl_nil]

theorem lookupA_append_of_some (d : String) (best l2 : List (String × Row))
    (w : Row) (h : lookupA d best = some w) :
    lookupA d (best ++ l2) = some w := by
  induction best with
  | nil => exact absurd h (by simp [lookupA])
  | cons kv rest ih =>
    rw [List.cons_append, lookupA]
    rw [lookupA] at h
    by_cases hk : kv.1 = d
    · simpa [hk] using h
    · rw [if_neg hk] at h ⊢
      exact ih h

theorem lookupA_append_of_none (d : String) (best l2 : List (String × Row))
    (h : lookupA d best = none) :
    lookupA d (best ++ l2) = lookupA d l2 := by
  induction best with
  | nil => rfl
  | cons kv rest ih =>
    rw [List.cons_append, lookupA]
    rw [lookupA] at h
    by_cases hk : kv.1 = d
    · rw [if_pos hk] at h; exact absurd h (by simp)
    · rw [if_neg hk] at h ⊢
      exact ih h

theorem lookupA_eq_none_iff (d : String) (best : List (String × Row)) :
    lookupA d best = none ↔ d ∉ best.map Prod.fst := by
  induction best with
  | nil => simp [lookupA]
  | cons kv rest ih =>
    rw [lookupA]
    by_cases hk : kv.1 = d
    · simp [hk]
    · simp [hk, ih, Ne.symm hk]

theorem lookupA_updateA_self (k : String) (r : Row) (best : List (String × Row))
    (w : Row) (h : lookupA k best = some w) :
    lookupA k (updateA k r best) = some r := by
  induction best with
  | nil => exact absurd h (by simp [lookupA])
  | cons kv rest ih =>
    rw [lookupA] at h
    rw [updateA]
    by_cases hk : kv.1 = k
    · rw [if_pos hk, lookupA, if_pos hk]
    · rw [if_neg hk] at h
      rw [if_neg hk, lookupA, if_neg hk]
      exact ih h

theorem lookupA_updateA_ne (d k : String) (r : Row) (best : List (String × Row))
    (hne : d ≠ k) :
    lookupA d (updateA k r best) = lookupA d best := by
  induction best with
  | nil => rfl
  | cons kv rest ih =>
    rw [updateA]
    by_cases hk : kv.1 = k
    · rw [if_pos hk, lookupA, lookupA]
      have hkd : ¬ kv.1 = d := by rw [hk]; exact fun hh => hne hh.symm
      rw [if_neg hkd, if_neg hkd]
    · rw [if_neg hk, lookupA, lookupA]
      by_cases hkd : kv.1 = d
      · rw [if_pos hkd, if_pos hkd]
      · rw [if_neg hkd, if_neg hkd, ih]

theorem updateA_map_fst (k : String) (r : Row) (best : List (String × Row)) :
    (updateA k r best).map Prod.fst = best.map Prod.fst := by
  induction best with
  | nil => rfl
  | cons kv rest ih =>
    rw [updateA]
    by_cases hk : kv.1 = k
    · rw [if_pos hk]; simp [hk]
    · rw [if_neg hk]; simp [ih]

theorem mem_updateA (k : String) (r : Row) (best : List (String × Row))
    (kv : String × Row) (h : kv ∈ updateA k r best) :
    kv = (k, r) ∨ kv ∈ best := by
  induction best with
  | nil => exact absurd h (by simp [updateA])
  | cons kv' rest ih =>
    rw [updateA] at h
    by_cases hk : kv'.1 = k
    · rw [if_pos hk] at h
      rcases List.mem_cons.mp h with h | h
      · exact Or.inl (by rw [h, hk])
      · exact Or.inr (List.mem_cons_of_mem _ h)
    · rw [if_neg hk] at h
      rcases List.mem_cons.mp h with h | h
      · exact Or.inr (h ▸ List.mem_cons_self _ _)
      · rcases ih h with h | h
        · exact Or.inl h
        · exact Or.inr (List.mem_cons_of_mem _ h)

theorem dedupeGo_spec (rows : List Row) : ∀ (pre : List Row)
    (best : List (String × Row)),
    (∀ d : String, d ≠ "" → lookupA d best = pickOpt (rowsWithDoi d pre)) →
    (∀ kv ∈ best, pyStrip kv.2.doi = kv.1 ∧ kv.1 ≠ "" ∧ kv.2 ∈ pre) →
    (best.map Prod.fst).Nodup →
    ((∀ d : String, d ≠ "" →
        lookupA d (dedupeGo best rows) = pickOpt (rowsWithDoi d (pre ++ rows))) ∧
     (∀ kv ∈ dedupeGo best rows,
        pyStrip kv.2.doi = kv.1 ∧ kv.1 ≠ "" ∧ kv.2 ∈ pre ++ rows) ∧
     ((dedupeGo best rows).map Prod.fst).Nodup) := by
  induction rows with
  | nil =>
    intro pre best h1 h2 h3
    have e : dedupeGo best [] = best := rfl
    rw [e, List.append_nil]
    exact ⟨h1, h2, h3⟩
  | cons row rest ih =>
    intro pre best h1 h2 h3
    have hsplit : pre ++ row :: rest = (pre ++ [row]) ++ rest := by simp
    rw [hsplit]
    by_cases hdoi : pyStrip row.doi = ""
    · have hstep : dedupeGo best (row :: rest) = dedupeGo best rest := by
        rw [dedupeGo, if_pos hdoi]
      rw [hstep]
      apply ih (pre ++ [row]) best
      · intro d hd
        rw [rowsWithDoi_append_single]
        have : (pyStrip row.doi == d) = false := by
          simp [hdoi, Ne.symm hd]
        rw [this]
        simpa using h1 d hd
      · intro kv hkv
        obtain ⟨a, b, c⟩ := h2 kv hkv
        exact ⟨a, b, List.mem_append_left _ c⟩
      · exact h3
    · cases hlk : lookupA (pyStrip row.doi) best with
      | none =>
        have hstep : dedupeGo best (row :: rest)
            = dedupeGo (best ++ [(pyStrip row.doi, row)]) rest := by
          rw [dedupeGo, if_neg hdoi, hlk]
        rw [hstep]
        apply ih (pre ++ [row]) (best ++ [(pyStrip row.doi, row)])
        · intro d hd
          rw [rowsWithDoi_append_single]
          by_cases hdd : pyStrip row.doi = d
          · subst hdd
            rw [if_pos (by simp), pickOpt_append_single, ← h1 _ hdoi, hlk,
              lookupA_append_of_none _ _ _ hlk, lookupA, if_pos rfl]
            rfl
          · rw [if_neg (by simpa using hdd)]
            rw [List.append_nil]
            cases hlkd : lookupA d best with
            | none =>
              rw [lookupA_append_of_none _ _ _ hlkd, lookupA, if_neg hdd]
              rw [← h1 d hd, hlkd]
              rfl
            | some w =>
              rw [lookupA_append_of_some _ _ _ _ hlkd, ← h1 d hd, hlkd]
        · intro kv hkv
          rcases List.mem_append.mp hkv with h | h
          · obtain ⟨a, b, c⟩ := h2 kv h
            exact ⟨a, b, List.mem_append_left _ c⟩
          · have : kv = (pyStrip row.doi, row) := by simpa using h
            subst this
            exact ⟨rfl, hdoi, List.mem_append_right _ (by simp)⟩
        · rw [List.map_append]
          simp only [List.map_cons, List.map_nil]
          rw [List.nodup_append]
          refine ⟨h3, List.nodup_singleton _, ?_⟩
          intro a ha hb
          have : a = pyStrip row.doi := by simpa using hb
          subst this
          exact (lookupA_eq_none_iff _ _).mp hlk ha
      | some existing =>
        by_cases hv : effV row > effV existing
        · have hstep : dedupeGo best (row :: rest)
              = dedupeGo (updateA (pyStrip row.doi) row best) rest := by
            rw [dedupeGo, if_neg hdoi, hlk]
            simp [hv]
          rw [hstep]
          apply ih (pre ++ [row]) (updateA (pyStrip row.doi) row best)
          · intro d hd
            rw [rowsWithDoi_append_single]
            by_cases hdd : pyStrip row.doi = d
            · subst hdd
              rw [if_pos (by simp), pickOpt_append_single, ← h1 _ hdoi, hlk]
              rw [lookupA_updateA_self _ _ _ _ hlk]
              simp [pick, hv]
            · rw [if_neg (by simpa using hdd), List.append_nil]
              rw [lookupA_updateA_ne _ _ _ _ (Ne.symm hdd)]
              exact h1 d hd
          · intro kv hkv
            rcases mem_updateA _ _ _ _ hkv with h | h
            · subst h
              exact ⟨rfl, hdoi, List.mem_append_right _ (by simp)⟩
            · obtain ⟨a, b, c⟩ := h2 kv h
              exact ⟨a, b, List.mem_append_left _ c⟩
          · rw [updateA_map_fst]
            exact h3
        · have hstep : dedupeGo best (row :: rest) = dedupeGo best rest := by
            rw [dedupeGo, if_neg hdoi, hlk]
            simp [hv]
          rw [hstep]
          apply ih (pre ++ [row]) best
          · intro d hd
            rw [rowsWithDoi_append_single]
            by_cases hdd : pyStrip row.doi = d
            · subst hdd
              rw [if_pos (by simp), pickOpt_append_single, ← h1 _ hdoi, hlk]
              simp [pick, hv]
            · rw [if_neg (by simpa using hdd), List.append_nil]
              exact h1 d hd
          · intro kv hkv
            obtain ⟨a, b, c⟩ := h2 kv hkv
            exact ⟨a, b, List.mem_append_left _ c⟩
          · exact h3

theorem dedupe_values_filter (d : String) : ∀ (best : List (String × Row)),
    (∀ kv ∈ best, pyStrip kv.2.doi = kv.1) →
    (best.map Prod.fst).Nodup →
    (best.map Prod.snd).filter (fun r => pyStrip r.doi == d)
      = (lookupA d best).toList := by
  intro best
  induction best with
  | nil => intro _ _; rfl
  | cons kv rest ih =>
    intro hstr hnd
    have hv : pyStrip kv.2.doi = kv.1 := hstr kv (List.mem_cons_self _ _)
    have hstr' : ∀ kv' ∈ rest, pyStrip kv'.2.doi = kv'.1 :=
      fun kv' h => hstr kv' (List.mem_cons_of_mem _ h)
    rw [List.map_cons] at hnd
    have hnotin : kv.1 ∉ rest.map Prod.fst := (List.nodup_cons.mp hnd).1
    have hnd' : (rest.map Prod.fst).Nodup := (List.nodup_cons.mp hnd).2
    rw [List.map_cons, List.filter_cons, lookupA]
    by_cases hk : kv.1 = d
    · have htest : (pyStrip kv.2.doi == d) = true := by
        rw [hv, hk]
        simp
      rw [htest, if_pos hk]
      have hrest : (rest.map Prod.snd).filter (fun r => pyStrip r.doi == d) = [] := by
        apply List.filter_eq_nil_iff.mpr
        intro r hr
        obtain ⟨kv', hkv', hsnd⟩ := List.mem_map.mp hr
        rw [← hsnd]
        have heq : pyStrip kv'.2.doi = kv'.1 := hstr' kv' hkv'
        have hne : kv'.1 ≠ d := by
          intro hcon
          apply hnotin
          rw [hk, ← hcon]
          exact List.mem_map.mpr ⟨kv', hkv', rfl⟩
        simp [heq, hne]
      rw [hrest]
      rfl
    · have htest : (pyStrip kv.2.doi == d) = false := by
        rw [hv]
        simpa using hk
      rw [htest, if_neg hk]
      simpa using ih hstr' hnd'

theorem dedupe_spec_all (rows : List Row) :
    (∀ d : String, d ≠ "" →
      lookupA d (dedupeGo [] rows) = pickOpt (rowsWithDoi d rows)) ∧
    (∀ kv ∈ dedupeGo [] rows,
      pyStrip kv.2.doi = kv.1 ∧ kv.1 ≠ "" ∧ kv.2 ∈ rows) ∧
    ((dedupeGo [] rows).map Prod.fst).Nodup := by
  have h := dedupeGo_spec rows [] []
    (by intro d hd; rfl)
    (by intro kv h; exact absurd h (List.not_mem_nil kv))
    (by simp)
  simpa using h

theorem mem_dedupe_props (rows : List Row) (r : Row)
    (h : r ∈ dedupe_keep_latest_version rows) :
    pyStrip r.doi ≠ "" ∧ r ∈ rows := by
  obtain ⟨_, spec2, _⟩ := dedupe_spec_all rows
  rw [dedupe_keep_latest_version] at h
  obtain ⟨kv, hkv, hsnd⟩ := List.mem_map.mp h
  obtain ⟨a, b, c⟩ := spec2 kv hkv
  rw [← hsnd]
  exact ⟨by rw [a]; exact b, c⟩

/-- Claim C2: for every non-empty DOI `d`, deduplication keeps exactly the
first-occurring record of maximal effective version among the records whose
stripped DOI is `d` (records with unparseable versions counting as `-1`), and
keeps exactly one record whenever the group is nonempty. -/
theorem claim_C2 (rows : List Row) (d : String) (hd : d ≠ "") :
    (dedupe_keep_latest_version rows).filter (fun r => pyStrip r.doi == d)
      = ((rowsWithDoi d rows).find?
          (fun r => effV r == maxEff (rowsWithDoi d rows))).toList ∧
    (rowsWithDoi d rows ≠ [] →
      ∃ r, (dedupe_keep_latest_version rows).filter (fun x => pyStrip x.doi == d)
          = [r]
        ∧ r ∈ rowsWithDoi d rows ∧ effV r = maxEff (rowsWithDoi d rows)) := by
  obtain ⟨spec1, spec2, spec3⟩ := dedupe_spec_all rows
  have hfilter : (dedupe_keep_latest_version rows).filter
        (fun r => pyStrip r.doi == d)
      = (lookupA d (dedupeGo [] rows)).toList := by
    apply dedupe_values_filter d (dedupeGo [] rows)
    · intro kv h
      exact (spec2 kv h).1
    · exact spec3
  have hlook : lookupA d (dedupeGo [] rows) = pickOpt (rowsWithDoi d rows) :=
    spec1 d hd
  constructor
  · rw [hfilter, hlook]
    cases hgrp : rowsWithDoi d rows with
    | nil => rfl
    | cons b rs => rw [pickOpt_cons_find]
  · intro hne
    cases hgrp : rowsWithDoi d rows with
    | nil => exact absurd hgrp hne
    | cons b rs =>
      have hsome := pickOpt_cons_isSome b rs
      obtain ⟨r, hr⟩ := Option.isSome_iff_exists.mp hsome
      have hfind : (b :: rs).find? (fun x => effV x == maxEff (b :: rs)) = some r := by
        rw [← pickOpt_cons_find]
        exact hr
      refine ⟨r, ?_, ?_, ?_⟩
      · rw [hfilter, hlook, hgrp, hr]
        rfl
      · exact List.mem_of_find?_eq_some hfind
      · have hp := List.find?_some hfind
        simpa using hp

/-- Witness for C2: of two records sharing DOI `10.1101/x` with versions 1 and
2, deduplication keeps exactly the version-2 record. -/
theorem claim_C2_witness :
    (dedupe_keep_latest_version [rowV1, rowV2]).filter
        (fun r => pyStrip r.doi == "10.1101/x") = [rowV2] :=
  ((claim_C2 [rowV1, rowV2] "10.1101/x" (by decide)).1).trans (by decide)

/- ### Claims C4 and C10: ordering, identifiers, and the nonempty-DOI invariant -/

theorem pyLe_cons_iff (x y : Char) (xs ys : List Char) :
    pyLe (x :: xs) (y :: ys) = true
      ↔ x.toNat < y.toNat ∨ (x.toNat = y.toNat ∧ pyLe xs ys = true) := by
  rw [pyLe]
  by_cases h1 : x.toNat < y.toNat
  · simp [h1]
  · by_cases h2 : y.toNat < x.toNat
    · simp only [if_neg h1, if_pos h2]
      constructor
      · intro h
        exact absurd h (by simp)
      · intro h
        rcases h with h | ⟨h, _⟩
        · exact absurd h h1
        · omega
    · have hxy : x.toNat = y.toNat := by omega
      simp [h1, h2, hxy]

theorem pyLe_total (a b : List Char) : pyLe a b = true ∨ pyLe b a = true := by
  induction a generalizing b with
  | nil => left; rfl
  | cons x xs ih =>
    cases b with
    | nil => right; rfl
    | cons y ys =>
      rw [pyLe_cons_iff, pyLe_cons_iff]
      rcases Nat.lt_trichotomy x.toNat y.toNat with h | h | h
      · left; exact Or.inl h
      · rcases ih ys with h2 | h2
        · left; exact Or.inr ⟨h, h2⟩
        · right; exact Or.inr ⟨h.symm, h2⟩
      · right; exact Or.inl h

theorem pyLe_trans (a b c : List Char) (h1 : pyLe a b = true)
    (h2 : pyLe b c = true) : pyLe a c = true := by
  induction a generalizing b c with
  | nil => rfl
  | cons x xs ih =>
    cases b with
    | nil => exact absurd h1 (by simp [pyLe])
    | cons y ys =>
      cases c with
      | nil => exact absurd h2 (by simp [pyLe])
      | cons z zs =>
        rw [pyLe_cons_iff] at h1 h2 ⊢
        rcases h1 with h1 | ⟨h1, h1'⟩ <;> rcases h2 with h2 | ⟨h2, h2'⟩
        · exact Or.inl (by omega)
        · exact Or.inl (by omega)
        · exact Or.inl (by omega)
        · exact Or.inr ⟨by omega, ih ys zs h1' h2'⟩

theorem mem_insertByDateDesc (r x : Row) (l : List Row) :
    x ∈ insertByDateDesc r l ↔ x = r ∨ x ∈ l := by
  induction l with
  | nil => simp [insertByDateDesc]
  | cons y ys ih =>
    rw [insertByDateDesc]
    by_cases h : pyLe r.date.data y.date.data = true
    · rw [if_pos h]
      simp only [List.mem_cons, ih]
      tauto
    · rw [if_neg h]
      simp only [List.mem_cons]

theorem pairwise_insertByDateDesc (r : Row) (l : List Row)
    (h : List.Pairwise (fun a b => pyLe b.date.data a.date.data = true) l) :
    List.Pairwise (fun a b => pyLe b.date.data a.date.data = true)
      (insertByDateDesc r l) := by
  induction l with
  | nil => simp [insertByDateDesc]
  | cons y ys ih =>
    rw [insertByDateDesc]
    rcases List.pairwise_cons.mp h with ⟨hy, hys⟩
    by_cases hc : pyLe r.date.data y.date.data = true
    · rw [if_pos hc]
      apply List.pairwise_cons.mpr
      refine ⟨?_, ih hys⟩
      intro b hb
      rcases (mem_insertByDateDesc r b ys).mp hb with hbr | hb
      · rw [hbr]; exact hc
      · exact hy b hb
    · rw [if_neg hc]
      have hyr : pyLe y.date.data r.date.data = true := by
        rcases pyLe_total r.date.data y.date.data with h2 | h2
        · exact absurd h2 hc
        · exact h2
      apply List.pairwise_cons.mpr
      refine ⟨?_, h⟩
      intro b hb
      rcases List.mem_cons.mp hb with hby | hb
      · rw [hby]; exact hyr
      · exact pyLe_trans _ _ _ (hy b hb) hyr

theorem sortByDateDesc_pairwise (rows : List Row) :
    List.Pairwise (fun a b => pyLe b.date.data a.date.data = true)
      (sortByDateDesc rows) := by
  suffices h : ∀ (rows acc : List Row),
      List.Pairwise (fun a b => pyLe b.date.data a.date.data = true) acc →
      List.Pairwise (fun a b => pyLe b.date.data a.date.data = true)
        (rows.foldl (fun acc r => insertByDateDesc r acc) acc) by
    exact h rows [] List.Pairwise.nil
  intro rows
  induction rows with
  | nil => intro acc h; exact h
  | cons r rs ih =>
    intro acc h
    rw [List.foldl_cons]
    exact ih _ (pairwise_insertByDateDesc r acc h)

theorem mem_sortByDateDesc (rows : List Row) (x : Row) :
    x ∈ sortByDateDesc rows ↔ x ∈ rows := by
  suffices h : ∀ (rows acc : List Row) (x : Row),
      x ∈ rows.foldl (fun acc r => insertByDateDesc r acc) acc
        ↔ x ∈ rows ∨ x ∈ acc by
    have := h rows [] x
    simpa [sortByDateDesc] using this
  intro rows
  induction rows with
  | nil => intro acc x; simp
  | cons r rs ih =>
    intro acc x
    rw [List.foldl_cons, ih]
    constructor
    · rintro (h | h)
      · exact Or.inl (List.mem_cons_of_mem _ h)
      · rcases (mem_insertByDateDesc r x acc).mp h with hxr | h
        · exact Or.inl (hxr ▸ List.mem_cons_self _ _)
        · exact Or.inr h
    · rintro (h | h)
      · rcases List.mem_cons.mp h with hxr | h
        · exact Or.inr ((mem_insertByDateDesc r x acc).mpr (Or.inl hxr))
        · exact Or.inl h
      · exact Or.inr ((mem_insertByDateDesc r x acc).mpr (Or.inr h))

theorem length_enumFrom (i : Nat) (rows : List Row) :
    (enumFrom i rows).length = rows.length := by
  induction rows generalizing i with
  | nil => rfl
  | cons r rs ih =>
    rw [enumFrom, List.length_cons, List.length_cons, ih]

theorem mem_enumFrom (i : Nat) (rows : List Row) (p : Paper)
    (h : p ∈ enumFrom i rows) : ∃ j x, x ∈ rows ∧ p = mkPaper j x := by
  induction rows generalizing i with
  | nil => exact absurd h (List.not_mem_nil p)
  | cons r rs ih =>
    rw [enumFrom] at h
    rcases List.mem_cons.mp h with h | h
    · exact ⟨i, r, List.mem_cons_self _ _, h⟩
    · obtain ⟨j, x, hx, he⟩ := ih (i + 1) h
      exact ⟨j, x, List.mem_cons_of_mem _ hx, he⟩

theorem map_pid_enumFrom : ∀ (rows : List Row) (i : Nat),
    (enumFrom i rows).map Paper.pid
      = (List.range rows.length).map (fun j => pidFor (i + j)) := by
  intro rows
  induction rows with
  | nil => intro i; rfl
  | cons r rs ih =>
    intro i
    rw [enumFrom, List.map_cons, List.length_cons, List.range_succ_eq_map,
      List.map_cons, List.map_map, ih (i + 1)]
    congr 1
    apply List.map_congr_left
    intro a _
    show pidFor (i + 1 + a) = pidFor (i + Nat.succ a)
    congr 1
    omega

theorem pairwise_dates_enumFrom (i : Nat) (rows : List Row)
    (hs : ∀ r ∈ rows, pyStrip r.date = r.date)
    (h : List.Pairwise (fun a b : Row => pyLe b.date.data a.date.data = true) rows) :
    List.Pairwise (fun a b : Paper => pyLe b.date.data a.date.data = true)
      (enumFrom i rows) := by
  induction rows generalizing i with
  | nil => exact List.Pairwise.nil
  | cons r rs ih =>
    rw [enumFrom]
    rcases List.pairwise_cons.mp h with ⟨hr, hrs⟩
    apply List.pairwise_cons.mpr
    refine ⟨?_, ih (i + 1) (fun x hx => hs x (List.mem_cons_of_mem _ hx)) hrs⟩
    intro p hp
    obtain ⟨j, x, hx, hpe⟩ := mem_enumFrom _ _ _ hp
    rw [hpe]
    have e1 : (mkPaper j x).date = x.date := by
      show pyStrip x.date = x.date
      exact hs x (List.mem_cons_of_mem _ hx)
    have e2 : (mkPaper i r).date = r.date := by
      show pyStrip r.date = r.date
      exact hs r (List.mem_cons_self _ _)
    rw [e1, e2]
    exact hr x hx

theorem digitChar_injOn : ∀ a < 10, ∀ b < 10, digitChar a = digitChar b → a = b := by
  decide

theorem digitChar_ne_zeroChar : ∀ a < 10, a ≠ 0 → digitChar a ≠ '0' := by decide

theorem toDigitsAux_correct : ∀ (fuel n : Nat) (acc : List Char), 0 < n → n < fuel →
    toDigitsAux fuel n acc = ((Nat.digits 10 n).map digitChar).reverse ++ acc := by
  intro fuel
  induction fuel with
  | zero => intro n acc h1 h2; omega
  | succ fuel ih =>
    intro n acc h1 h2
    rw [toDigitsAux]
    by_cases h10 : n < 10
    · rw [if_pos h10, Nat.digits_of_lt 10 n (Nat.pos_iff_ne_zero.mp h1) h10]
      rfl
    · rw [if_neg h10]
      have hd : 0 < n / 10 := Nat.div_pos (le_of_not_lt h10) (by norm_num)
      have hlt : n / 10 < n := Nat.div_lt_self h1 (by norm_num)
      have hf : n / 10 < fuel := by omega
      rw [ih (n / 10) (digitChar (n % 10) :: acc) hd hf]
      rw [Nat.digits_def' (by norm_num : (1 : Nat) < 10) h1]
      rw [List.map_cons, List.reverse_cons, List.append_assoc]
      rfl

theorem natToChars_eq (n : Nat) (h : 0 < n) :
    natToChars n = ((Nat.digits 10 n).map digitChar).reverse := by
  rw [natToChars, toDigitsAux_correct (n + 1) n [] h (Nat.lt_succ_self n),
    List.append_nil]

theorem map_digitChar_inj : ∀ (l1 l2 : List Nat), (∀ d ∈ l1, d < 10) →
    (∀ d ∈ l2, d < 10) → l1.map digitChar = l2.map digitChar → l1 = l2 := by
  intro l1
  induction l1 with
  | nil =>
    intro l2 _ _ h
    cases l2 with
    | nil => rfl
    | cons b l2 => exact absurd h (by simp)
  | cons a l1 ih =>
    intro l2 hb1 hb2 h
    cases l2 with
    | nil => exact absurd h (by simp)
    | cons b l2 =>
      simp only [List.map_cons, List.cons.injEq] at h
      obtain ⟨hab, ht⟩ := h
      have hd := digitChar_injOn a (hb1 a (List.mem_cons_self _ _))
        b (hb2 b (List.mem_cons_self _ _)) hab
      have htl := ih l2 (fun d hd => hb1 d (List.mem_cons_of_mem _ hd))
        (fun d hd => hb2 d (List.mem_cons_of_mem _ hd)) ht
      rw [hd, htl]

theorem natToChars_inj (m n : Nat) (hm : 0 < m) (hn : 0 < n)
    (h : natToChars m = natToChars n) : m = n := by
  rw [natToChars_eq m hm, natToChars_eq n hn] at h
  have h1 : (Nat.digits 10 m).map digitChar = (Nat.digits 10 n).map digitChar :=
    List.reverse_injective h
  have h2 : Nat.digits 10 m = Nat.digits 10 n :=
    map_digitChar_inj _ _ (fun d hd => Nat.digits_lt_base (by norm_num) hd)
      (fun d hd => Nat.digits_lt_base (by norm_num) hd) h1
  have h3 := congrArg (Nat.ofDigits 10) h2
  rw [Nat.ofDigits_digits, Nat.ofDigits_digits] at h3
  exact_mod_cast h3

theorem natToChars_head_ne_zero (n : Nat) (h : 0 < n) :
    (natToChars n).head? ≠ some '0' := by
  have hnn : n ≠ 0 := Nat.pos_iff_ne_zero.mp h
  rw [natToChars_eq n h]
  rcases List.eq_nil_or_concat (Nat.digits 10 n) with hnil | ⟨L, a, hla⟩
  · exact absurd hnil (Nat.digits_ne_nil_iff_ne_zero.mpr hnn)
  · rw [List.concat_eq_append] at hla
    have ha10 : a < 10 := Nat.digits_lt_base (by norm_num)
      (by rw [hla]; exact List.mem_append_right _ (List.mem_cons_self _ _))
    have hane : a ≠ 0 := by
      have hgl := Nat.getLast_digit_ne_zero 10 hnn
      have hq : (Nat.digits 10 n).getLast? = some a := by
        rw [hla]
        exact List.getLast?_concat L
      rw [List.getLast?_eq_getLast _ (Nat.digits_ne_nil_iff_ne_zero.mpr hnn)] at hq
      have := Option.some.inj hq
      rw [← this]
      exact hgl
    rw [hla, List.map_append, List.reverse_append]
    intro hcon
    simp only [List.map_cons, List.map_nil, List.reverse_cons, List.reverse_nil,
      List.nil_append, List.cons_append, List.head?_cons] at hcon
    exact digitChar_ne_zeroChar a ha10 hane (Option.some.inj hcon)

theorem pidFor_inj (m n : Nat) (hm : 0 < m) (hn : 0 < n)
    (h : pidFor m = pidFor n) : m = n := by
  have hdata : ('P' :: (if m < 10 then '0' :: natToChars m else natToChars m))
      = ('P' :: (if n < 10 then '0' :: natToChars n else natToChars n)) :=
    congrArg String.data h
  simp only [List.cons.injEq, true_and] at hdata
  by_cases hm10 : m < 10 <;> by_cases hn10 : n < 10
  · rw [if_pos hm10, if_pos hn10] at hdata
    simp only [List.cons.injEq, true_and] at hdata
    exact natToChars_inj m n hm hn hdata
  · rw [if_pos hm10, if_neg hn10] at hdata
    exfalso
    apply natToChars_head_ne_zero n hn
    rw [← hdata]
    rfl
  · rw [if_neg hm10, if_pos hn10] at hdata
    exfalso
    apply natToChars_head_ne_zero m hm
    rw [hdata]
    rfl
  · rw [if_neg hm10, if_neg hn10] at hdata
    exact natToChars_inj m n hm hn hdata

/-- Claim C4 (amended): identifiers `P01, P02, ...` are assigned sequentially
in emission order, unique with no gaps; and provided no record's date string
carries surrounding whitespace (true of ISO dates), the emitted papers are
sorted by date string descending under the lexicographic comparison `pyLe`.
(Without that proviso the source sorts by the RAW record date but emits the
STRIPPED date, see the counterexample.) -/
theorem claim_C4 (rows : List Row) :
    ((rows_to_papers rows).map Paper.pid
      = (List.range (rows_to_papers rows).length).map (fun j => pidFor (j + 1))) ∧
    ((rows_to_papers rows).map Paper.pid).Nodup ∧
    ((∀ r ∈ rows, pyStrip r.date = r.date) →
      List.Pairwise (fun a b : Paper => pyLe b.date.data a.date.data = true)
        (rows_to_papers rows)) := by
  have hlen : (rows_to_papers rows).length
      = (sortByDateDesc (dedupe_keep_latest_version rows)).length :=
    length_enumFrom 1 _
  have hpids : (rows_to_papers rows).map Paper.pid
      = (List.range (rows_to_papers rows).length).map (fun j => pidFor (j + 1)) := by
    rw [hlen]
    show (enumFrom 1 (sortByDateDesc (dedupe_keep_latest_version rows))).map Paper.pid
      = _
    rw [map_pid_enumFrom]
    apply List.map_congr_left
    intro a _
    congr 1
    omega
  refine ⟨hpids, ?_, ?_⟩
  · rw [hpids]
    apply List.Nodup.map_on
    · intro x _ y _ hxy
      have := pidFor_inj (x + 1) (y + 1) (by omega) (by omega) hxy
      omega
    · exact List.nodup_range _
  · intro hs
    show List.Pairwise _ (enumFrom 1 (sortByDateDesc (dedupe_keep_latest_version rows)))
    apply pairwise_dates_enumFrom
    · intro r hr
      have hr2 : r ∈ dedupe_keep_latest_version rows :=
        (mem_sortByDateDesc _ r).mp hr
      exact hs r (mem_dedupe_props rows r hr2).2
    · exact sortByDateDesc_pairwise _

/-- Counterexample to C4 as stated: a record whose date has a leading space
sorts (by the raw key) below a clean earlier date, so the emitted `Paper`
values are not in descending order of their (stripped) date fields. -/
theorem claim_C4_counterexample :
    (rows_to_papers [rowD1, rowD2]).map Paper.date
      = ["2024-01-01", "2024-02-02"] ∧
    ¬ List.Pairwise (fun a b : Paper => pyLe b.date.data a.date.data = true)
        (rows_to_papers [rowD1, rowD2]) := by
  constructor
  · decide
  · decide

/-- Witness for the amended C4 at concrete inputs with clean dates. -/
theorem claim_C4_witness :
    (rows_to_papers [rowD1, rowD2]).map Paper.pid = ["P01", "P02"] ∧
    List.Pairwise (fun a b : Paper => pyLe b.date.data a.date.data = true)
      (rows_to_papers [rowD1]) :=
  ⟨((claim_C4 [rowD1, rowD2]).1).trans (by decide),
   (claim_C4 [rowD1]).2.2 (by decide)⟩

/-- Claim C10: deduplication drops every record whose DOI strips to the empty
string (keeping only records from the input), so every emitted `Paper` has a
nonempty DOI. -/
theorem claim_C10 (rows : List Row) :
    (∀ r ∈ dedupe_keep_latest_version rows, pyStrip r.doi ≠ "" ∧ r ∈ rows) ∧
    (∀ p ∈ rows_to_papers rows, p.doi ≠ "") := by
  refine ⟨fun r h => mem_dedupe_props rows r h, fun p hp => ?_⟩
  obtain ⟨j, x, hx, hpe⟩ := mem_enumFrom 1
    (sortByDateDesc (dedupe_keep_latest_version rows)) p hp
  have hx2 : x ∈ dedupe_keep_latest_version rows :=
    (mem_sortByDateDesc _ x).mp hx
  have hd := (mem_dedupe_props rows x hx2).1
  rw [hpe]
  show pyStrip x.doi ≠ ""
  exact hd

/-- Witness for C10: with a whitespace-only-DOI record present, the surviving
paper's DOI is nonempty. -/
theorem claim_C10_witness : (mkPaper 1 rowV1).doi ≠ "" :=
  (claim_C10 [rowEmptyDoi, rowV1]).2 (mkPaper 1 rowV1) (by decide)

/- ### Claim C5: JSON extraction from the generative-text response -/

theorem dropWhile_head_stop {p : Char → Bool} (l : List Char) (c : Char)
    (h : l.head? = some c) (hp : p c = false) : l.dropWhile p = l := by
  cases l with
  | nil => simp at h
  | cons a t =>
    have ha : a = c := by simpa using h
    rw [List.dropWhile_cons, ha, hp]
    simp

theorem rstripL_eq_self (l : List Char) (c : Char) (h : l.getLast? = some c)
    (hc : isPySpace c = false) : rstripL l = l := by
  have hrev : l.reverse.head? = some c := by rw [List.head?_reverse]; exact h
  rw [rstripL, dropWhile_head_stop l.reverse c hrev hc, List.reverse_reverse]

theorem pyStripL_eq_self (l : List Char) (c1 c2 : Char) (h1 : l.head? = some c1)
    (hc1 : isPySpace c1 = false) (h2 : l.getLast? = some c2)
    (hc2 : isPySpace c2 = false) : pyStripL l = l := by
  rw [pyStripL, lstripL, dropWhile_head_stop l c1 h1 hc1]
  exact rstripL_eq_self l c2 h2 hc2

theorem dropWhile_append_all {p : Char → Bool} (l1 l2 : List Char)
    (h : ∀ c ∈ l1, p c = true) :
    (l1 ++ l2).dropWhile p = l2.dropWhile p := by
  induction l1 with
  | nil => rfl
  | cons a t ih =>
    rw [List.cons_append, List.dropWhile_cons, h a (List.mem_cons_self _ _)]
    simp only [if_true]
    exact ih (fun c hc => h c (List.mem_cons_of_mem _ hc))

theorem takeLenPlus (l1 l2 : List Char) (n : Nat) :
    (l1 ++ l2).take (l1.length + n) = l1 ++ l2.take n := by
  induction l1 with
  | nil => simp
  | cons a t ih =>
    rw [List.cons_append, List.length_cons]
    have harith : t.length + 1 + n = (t.length + n) + 1 := by omega
    rw [harith, List.take_succ_cons, ih, List.cons_append]

theorem prefixOfB_head_ne (a : Char) (as l : List Char) (c : Char)
    (h : l.head? = some c) (hne : (a == c) = false) :
    prefixOfB (a :: as) l = false := by
  cases l with
  | nil => rfl
  | cons d t =>
    have hd : d = c := by simpa using h
    rw [prefixOfB, hd, hne]
    rfl

theorem dropWhile_head_false {p : Char → Bool} :
    ∀ (l : List Char) (c : Char) (t : List Char),
    l.dropWhile p = c :: t → p c = false := by
  intro l
  induction l with
  | nil => intro c t h; simp at h
  | cons a as ih =>
    intro c t h
    rw [List.dropWhile_cons] at h
    by_cases hp : p a = true
    · rw [hp] at h
      simp only [if_true] at h
      exact ih c t h
    · have hp' : p a = false := eq_false_of_ne_true hp
      rw [hp'] at h
      simp only [Bool.false_eq_true, if_false] at h
      have : a = c := (List.cons.injEq _ _ _ _).mp h |>.1
      rw [← this]
      exact hp'

theorem hasBracePair_iff (l : List Char) :
    hasBracePair l = true ↔ List.Sublist ['\x7b', '\x7d'] l := by
  induction l with
  | nil =>
    constructor
    · intro h; exact absurd h (by simp [hasBracePair])
    · intro h; exact absurd (List.Sublist.length_le h) (by simp)
  | cons c cs ih =>
    rw [hasBracePair]
    constructor
    · intro h
      rcases Bool.or_eq_true_iff.mp h with h | h
      · rcases Bool.and_eq_true_iff.mp h with ⟨h1, h2⟩
        have hc : c = '\x7b' := of_decide_eq_true h1
        have hm : '\x7d' ∈ cs := by
          have := List.contains_iff_exists_mem_beq.mp h2
          obtain ⟨b, hb, hbeq⟩ := this
          have : '\x7d' = b := eq_of_beq hbeq
          rw [this]
          exact hb
        rw [hc]
        exact List.Sublist.cons₂ _ (List.singleton_sublist.mpr hm)
      · exact List.Sublist.cons _ (ih.mp h)
    · intro h
      cases h with
      | cons _ h2 =>
        apply Bool.or_eq_true_iff.mpr
        right
        exact ih.mpr h2
      | cons₂ _ h2 =>
        apply Bool.or_eq_true_iff.mpr
        left
        apply Bool.and_eq_true_iff.mpr
        refine ⟨by simp, ?_⟩
        apply List.contains_iff_exists_mem_beq.mpr
        exact ⟨'\x7d', List.singleton_sublist.mp h2, by simp⟩

theorem hasBracePair_mono (l1 l2 : List Char) (h : List.Sublist l1 l2)
    (hno : hasBracePair l2 = false) : hasBracePair l1 = false := by
  cases hb : hasBracePair l1
  · rfl
  · exfalso
    have := (hasBracePair_iff l2).mpr (((hasBracePair_iff l1).mp hb).trans h)
    rw [hno] at this
    exact absurd this (by simp)

theorem hasBracePair_of_braceSpan (l span : List Char)
    (h : braceSpan l = some span) : hasBracePair l = true := by
  simp only [braceSpan] at h
  by_cases he : ((l.dropWhile (fun c => c != '\x7b')).reverse.dropWhile
      (fun c => c != '\x7d')).reverse.isEmpty = true
  · rw [if_pos he] at h
    exact absurd h (by simp)
  · rw [if_neg he] at h
    set pre := l.dropWhile (fun c => c != '\x7b') with hpre
    have hspan : (pre.reverse.dropWhile (fun c => c != '\x7d')).reverse ≠ [] := by
      intro hcon
      apply he
      rw [hcon]
      rfl
    have hdw : pre.reverse.dropWhile (fun c => c != '\x7d') ≠ [] := by
      intro hcon
      apply hspan
      rw [hcon]
      rfl
    cases hdwe : pre.reverse.dropWhile (fun c => c != '\x7d') with
    | nil => exact absurd hdwe hdw
    | cons d t =>
      have hd : (d != '\x7d') = false := dropWhile_head_false pre.reverse d t hdwe
      have hdeq : d = '\x7d' := by simpa using hd
      have hmem : d ∈ pre.reverse := by
        have hsub := List.dropWhile_sublist (l := pre.reverse)
          (fun c => c != '\x7d')
        rw [hdwe] at hsub
        exact hsub.mem (List.mem_cons_self _ _)
      have hmem2 : '\x7d' ∈ pre := by
        rw [← hdeq]
        exact (List.mem_reverse).mp hmem
      cases hpe : pre with
      | nil =>
        rw [hpe] at hmem2
        exact absurd hmem2 (List.not_mem_nil _)
      | cons b bs =>
        have hb : (b != '\x7b') = false := by
          apply dropWhile_head_false l b bs
          rw [← hpre, hpe]
        have hbeq : b = '\x7b' := by simpa using hb
        have hmem3 : '\x7d' ∈ bs := by
          rw [hpe] at hmem2
          rcases List.mem_cons.mp hmem2 with hcon | hm
          · rw [hbeq] at hcon
            exact absurd hcon.symm (by decide)
          · exact hm
        have hpair : hasBracePair pre = true := by
          rw [hpe, hasBracePair, hbeq]
          apply Bool.or_eq_true_iff.mpr
          left
          apply Bool.and_eq_true_iff.mpr
          refine ⟨by simp, ?_⟩
          apply List.contains_iff_exists_mem_beq.mpr
          exact ⟨'\x7d', hmem3, by simp⟩
      -- lift to l along the sublist pre <+ l
        have hsubl : List.Sublist pre l := by
          rw [hpre]
          exact List.dropWhile_sublist _
        have := (hasBracePair_iff l).mpr (((hasBracePair_iff pre).mp hpair).trans hsubl)
        exact this

theorem braceSpan_eq_none (l : List Char) (h : hasBracePair l = false) :
    braceSpan l = none := by
  cases hb : braceSpan l with
  | none => rfl
  | some span =>
    have := hasBracePair_of_braceSpan l span hb
    rw [h] at this
    exact absurd this (by simp)

theorem lstripL_sublist (l : List Char) : List.Sublist (lstripL l) l :=
  List.dropWhile_sublist _

theorem rstripL_sublist (l : List Char) : List.Sublist (rstripL l) l := by
  rw [rstripL]
  have h := List.dropWhile_sublist (l := l.reverse) isPySpace
  have h2 := h.reverse
  rwa [List.reverse_reverse] at h2

theorem stripFenceStart_sublist (l : List Char) : List.Sublist (stripFenceStart l) l := by
  rw [stripFenceStart]
  by_cases h1 : prefixOfB "```json".data l = true
  · rw [if_pos h1]
    exact (lstripL_sublist _).trans (List.drop_sublist _ _)
  · rw [if_neg h1]
    by_cases h2 : prefixOfB "```".data l = true
    · rw [if_pos h2]
      exact (lstripL_sublist _).trans (List.drop_sublist _ _)
    · rw [if_neg h2]

theorem stripFenceEnd_sublist (l : List Char) : List.Sublist (stripFenceEnd l) l := by
  rw [stripFenceEnd]
  by_cases h1 : prefixOfB "```".data.reverse l.reverse = true
  · rw [if_pos h1]
    exact (rstripL_sublist _).trans (List.take_sublist _ _)
  · rw [if_neg h1]

theorem cleanedOf_sublist (text : List Char) : List.Sublist (cleanedOf text) text :=
  ((stripFenceEnd_sublist _).trans (stripFenceStart_sublist _)).trans
    ((rstripL_sublist _).trans (lstripL_sublist _))

theorem extract_json_direct {J : Type} (loads : List Char → Option J)
    (text K : List Char) (hc : cleanedOf text = K) (h1 : K.head? = some '\x7b')
    (h2 : K.getLast? = some '\x7d') : extract_json loads text = loads K := by
  simp only [extract_json, hc]
  rw [if_pos ⟨h1, h2⟩]

theorem extract_json_span {J : Type} (loads : List Char → Option J)
    (text K span : List Char) (hc : cleanedOf text = K)
    (hnot : ¬ (K.head? = some '\x7b' ∧ K.getLast? = some '\x7d'))
    (hspan : braceSpan K = some span) : extract_json loads text = loads span := by
  simp only [extract_json, hc]
  rw [if_neg hnot, hspan]

theorem extract_json_none {J : Type} (loads : List Char → Option J)
    (text K : List Char) (hc : cleanedOf text = K)
    (hnot : ¬ (K.head? = some '\x7b' ∧ K.getLast? = some '\x7d'))
    (hspan : braceSpan K = none) : extract_json loads text = none := by
  simp only [extract_json, hc]
  rw [if_neg hnot, hspan]

theorem stripFenceEnd_tail (K : List Char)
    (hlast : K.getLast? = some '\x7d') :
    stripFenceEnd (K ++ "\n```".data) = K := by
  have hKrev : K.reverse.head? = some '\x7d' := by
    rw [List.head?_reverse]
    exact hlast
  have hprefix : prefixOfB "```".data.reverse (K ++ "\n```".data).reverse = true := by
    rw [List.reverse_append]
    rfl
  rw [stripFenceEnd, if_pos hprefix]
  have hlen : (K ++ "\n```".data).length - 3 = K.length + 1 := by
    rw [List.length_append]
    show K.length + 4 - 3 = K.length + 1
    omega
  rw [hlen, takeLenPlus]
  show rstripL (K ++ ['\n']) = K
  rw [rstripL, List.reverse_append]
  show (('\n' :: K.reverse).dropWhile isPySpace).reverse = K
  rw [List.dropWhile_cons]
  have e1 : isPySpace '\n' = true := by decide
  rw [e1]
  simp only [if_true]
  rw [dropWhile_head_stop K.reverse '\x7d' hKrev (by decide), List.reverse_reverse]

theorem cleanedOf_fenced_json (s' : List Char)
    (hlast : ('\x7b' :: s').getLast? = some '\x7d') :
    cleanedOf ("```json\n".data ++ (('\x7b' :: s') ++ "\n```".data))
      = '\x7b' :: s' := by
  have hstrip : pyStripL ("```json\n".data ++ (('\x7b' :: s') ++ "\n```".data))
      = "```json\n".data ++ (('\x7b' :: s') ++ "\n```".data) := by
    have hhd : ("```json\n".data ++ (('\x7b' :: s') ++ "\n```".data)).head?
        = some '`' := rfl
    have hlst : ("```json\n".data ++ (('\x7b' :: s') ++ "\n```".data)).getLast?
        = some '`' := by
      rw [List.getLast?_append, List.getLast?_append]
      rfl
    exact pyStripL_eq_self _ '`' '`' hhd (by decide) hlst (by decide)
  have hpre : prefixOfB "```json".data
      ("```json\n".data ++ (('\x7b' :: s') ++ "\n```".data)) = true := rfl
  have hstart : stripFenceStart
        ("```json\n".data ++ (('\x7b' :: s') ++ "\n```".data))
      = ('\x7b' :: s') ++ "\n```".data := by
    rw [stripFenceStart, if_pos hpre]
    show lstripL ('\n' :: (('\x7b' :: s') ++ "\n```".data)) = _
    rw [lstripL, List.dropWhile_cons]
    have e1 : isPySpace '\n' = true := by decide
    rw [e1]
    simp only [if_true]
    exact dropWhile_head_stop _ '\x7b' rfl (by decide)
  rw [cleanedOf, hstrip, hstart]
  exact stripFenceEnd_tail _ hlast

theorem cleanedOf_fenced_plain (s' : List Char)
    (hlast : ('\x7b' :: s').getLast? = some '\x7d') :
    cleanedOf ("```\n".data ++ (('\x7b' :: s') ++ "\n```".data))
      = '\x7b' :: s' := by
  have hstrip : pyStripL ("```\n".data ++ (('\x7b' :: s') ++ "\n```".data))
      = "```\n".data ++ (('\x7b' :: s') ++ "\n```".data) := by
    have hhd : ("```\n".data ++ (('\x7b' :: s') ++ "\n```".data)).head?
        = some '`' := rfl
    have hlst : ("```\n".data ++ (('\x7b' :: s') ++ "\n```".data)).getLast?
        = some '`' := by
      rw [List.getLast?_append, List.getLast?_append]
      rfl
    exact pyStripL_eq_self _ '`' '`' hhd (by decide) hlst (by decide)
  have hpre7 : prefixOfB "```json".data
      ("```\n".data ++ (('\x7b' :: s') ++ "\n```".data)) = false := rfl
  have hpre3 : prefixOfB "```".data
      ("```\n".data ++ (('\x7b' :: s') ++ "\n```".data)) = true := rfl
  have hstart : stripFenceStart
        ("```\n".data ++ (('\x7b' :: s') ++ "\n```".data))
      = ('\x7b' :: s') ++ "\n```".data := by
    rw [stripFenceStart, hpre7]
    simp only [Bool.false_eq_true, if_false]
    rw [if_pos hpre3]
    show lstripL ('\n' :: (('\x7b' :: s') ++ "\n```".data)) = _
    rw [lstripL, List.dropWhile_cons]
    have e1 : isPySpace '\n' = true := by decide
    rw [e1]
    simp only [if_true]
    exact dropWhile_head_stop _ '\x7b' rfl (by decide)
  rw [cleanedOf, hstrip, hstart]
  exact stripFenceEnd_tail _ hlast

theorem cleanedOf_bare (s' : List Char)
    (hlast : ('\x7b' :: s').getLast? = some '\x7d') :
    cleanedOf ('\x7b' :: s') = '\x7b' :: s' := by
  have hrev : ('\x7b' :: s').reverse.head? = some '\x7d' := by
    rw [List.head?_reverse]
    exact hlast
  have hstrip : pyStripL ('\x7b' :: s') = '\x7b' :: s' :=
    pyStripL_eq_self _ '\x7b' '\x7d' rfl (by decide) hlast (by decide)
  have hpre7 : prefixOfB "```json".data ('\x7b' :: s') = false := rfl
  have hpre3 : prefixOfB "```".data ('\x7b' :: s') = false := rfl
  have hend : prefixOfB "```".data.reverse ('\x7b' :: s').reverse = false :=
    prefixOfB_head_ne _ _ _ '\x7d' hrev (by decide)
  rw [cleanedOf, hstrip, stripFenceStart, hpre7]
  simp only [Bool.false_eq_true, if_false]
  rw [hpre3]
  simp only [Bool.false_eq_true, if_false]
  rw [stripFenceEnd, hend]
  simp only [Bool.false_eq_true, if_false]

theorem cleanedOf_prose (prose s' : List Char) (c : Char)
    (hh : prose.head? = some c) (hsp : isPySpace c = false)
    (hbt : (c == '`') = false)
    (hlast : ('\x7b' :: s').getLast? = some '\x7d') :
    cleanedOf (prose ++ ('\x7b' :: s')) = prose ++ ('\x7b' :: s') := by
  have hh2 : (prose ++ ('\x7b' :: s')).head? = some c := by
    rw [List.head?_append, hh]
    rfl
  have hl2 : (prose ++ ('\x7b' :: s')).getLast? = some '\x7d' := by
    rw [List.getLast?_append, hlast]
    rfl
  have hrev : (prose ++ ('\x7b' :: s')).reverse.head? = some '\x7d' := by
    rw [List.head?_reverse]
    exact hl2
  have hstrip : pyStripL (prose ++ ('\x7b' :: s')) = prose ++ ('\x7b' :: s') :=
    pyStripL_eq_self _ c '\x7d' hh2 hsp hl2 (by decide)
  have hbt2 : ('`' == c) = false :=
    beq_eq_false_iff_ne.mpr (Ne.symm (beq_eq_false_iff_ne.mp hbt))
  have hpre7 : prefixOfB "```json".data (prose ++ ('\x7b' :: s')) = false :=
    prefixOfB_head_ne _ _ _ c hh2 hbt2
  have hpre3 : prefixOfB "```".data (prose ++ ('\x7b' :: s')) = false :=
    prefixOfB_head_ne _ _ _ c hh2 hbt2
  have hend : prefixOfB "```".data.reverse (prose ++ ('\x7b' :: s')).reverse
      = false :=
    prefixOfB_head_ne _ _ _ '\x7d' hrev (by decide)
  rw [cleanedOf, hstrip, stripFenceStart, hpre7]
  simp only [Bool.false_eq_true, if_false]
  rw [hpre3]
  simp only [Bool.false_eq_true, if_false]
  rw [stripFenceEnd, hend]
  simp only [Bool.false_eq_true, if_false]

theorem braceSpan_prose (prose s' : List Char) (hnb : '\x7b' ∉ prose) :
    braceSpan (prose ++ ('\x7b' :: s')) = braceSpan ('\x7b' :: s') := by
  simp only [braceSpan]
  rw [dropWhile_append_all prose ('\x7b' :: s')
    (fun c hc => bne_iff_ne.mpr (fun hcon => hnb (by rw [← hcon]; exact hc)))]

theorem braceSpan_starts_ends (s' : List Char)
    (hlast : ('\x7b' :: s').getLast? = some '\x7d') :
    braceSpan ('\x7b' :: s') = some ('\x7b' :: s') := by
  have hrev : ('\x7b' :: s').reverse.head? = some '\x7d' := by
    rw [List.head?_reverse]
    exact hlast
  simp only [braceSpan]
  rw [dropWhile_head_stop ('\x7b' :: s') '\x7b' rfl (by decide)]
  rw [dropWhile_head_stop ('\x7b' :: s').reverse '\x7d' hrev (by decide)]
  rw [List.reverse_reverse]
  rfl

/-- Claim C5: input wrapped in a fenced code block (tagged `json` or not)
parses to the same object as the unwrapped input; leading prose before a
brace-delimited span still yields exactly that span's parse; and input with
no brace pair fails with a decoding error (`none`). -/
theorem claim_C5 (J : Type) (loads : List Char → Option J)
    (s' prose text : List Char) (c : Char) :
    (('\x7b' :: s').getLast? = some '\x7d' →
       extract_json loads ("```json\n".data ++ (('\x7b' :: s') ++ "\n```".data))
           = loads ('\x7b' :: s') ∧
       extract_json loads ("```\n".data ++ (('\x7b' :: s') ++ "\n```".data))
           = loads ('\x7b' :: s') ∧
       extract_json loads ('\x7b' :: s') = loads ('\x7b' :: s')) ∧
    (prose.head? = some c → isPySpace c = false → (c == '`') = false →
       (c == '\x7b') = false → '\x7b' ∉ prose →
       ('\x7b' :: s').getLast? = some '\x7d' →
       extract_json loads (prose ++ ('\x7b' :: s')) = loads ('\x7b' :: s')) ∧
    (hasBracePair text = false → extract_json loads text = none) := by
  refine ⟨fun hlast => ⟨?_, ?_, ?_⟩, ?_, ?_⟩
  · exact extract_json_direct loads _ _ (cleanedOf_fenced_json s' hlast) rfl hlast
  · exact extract_json_direct loads _ _ (cleanedOf_fenced_plain s' hlast) rfl hlast
  · exact extract_json_direct loads _ _ (cleanedOf_bare s' hlast) rfl hlast
  · intro hh hsp hbt hbrace hnb hlast
    have hclean := cleanedOf_prose prose s' c hh hsp hbt hlast
    have hnot : ¬ ((prose ++ ('\x7b' :: s')).head? = some '\x7b'
        ∧ (prose ++ ('\x7b' :: s')).getLast? = some '\x7d') := by
      rintro ⟨h1, _⟩
      rw [List.head?_append, hh] at h1
      have : c = '\x7b' := by simpa using h1
      rw [this] at hbrace
      simp at hbrace
    have hspan : braceSpan (prose ++ ('\x7b' :: s')) = some ('\x7b' :: s') := by
      rw [braceSpan_prose prose s' hnb]
      exact braceSpan_starts_ends s' hlast
    exact extract_json_span loads _ _ _ hclean hnot hspan
  · intro hno
    have hnoc : hasBracePair (cleanedOf text) = false :=
      hasBracePair_mono _ _ (cleanedOf_sublist text) hno
    have hnot : ¬ ((cleanedOf text).head? = some '\x7b'
        ∧ (cleanedOf text).getLast? = some '\x7d') := by
      rintro ⟨h1, h2⟩
      cases hcl : cleanedOf text with
      | nil =>
        rw [hcl] at h1
        simp at h1
      | cons a t =>
        rw [hcl] at h1 h2 hnoc
        have ha : a = '\x7b' := by simpa using h1
        cases t with
        | nil =>
          rw [ha] at h2
          simp at h2
        | cons b t' =>
          have h2' : (b :: t').getLast? = some '\x7d' := by
            rwa [List.getLast?_cons_cons] at h2
          have hmem : '\x7d' ∈ b :: t' := List.mem_of_getLast?_eq_some h2'
          have hp : hasBracePair (a :: b :: t') = true := by
            rw [hasBracePair, ha]
            apply Bool.or_eq_true_iff.mpr
            left
            apply Bool.and_eq_true_iff.mpr
            refine ⟨by simp, ?_⟩
            apply List.contains_iff_exists_mem_beq.mpr
            exact ⟨'\x7d', hmem, by simp⟩
          rw [hnoc] at hp
          exact absurd hp (by simp)
    exact extract_json_none loads text _ rfl hnot (braceSpan_eq_none _ hnoc)

/-- Witness for C5: concrete fenced, prose-prefixed, and brace-free inputs. -/
theorem claim_C5_witness :
    extract_json loadsLen
        ("```json\n".data ++ (('\x7b' :: "1\x7d".data) ++ "\n```".data))
      = loadsLen ('\x7b' :: "1\x7d".data) ∧
    extract_json loadsLen ("ab".data ++ ('\x7b' :: "x\x7d".data))
      = loadsLen ('\x7b' :: "x\x7d".data) ∧
    extract_json loadsLen "no braces".data = none :=
  ⟨((claim_C5 Nat loadsLen "1\x7d".data [] [] ' ').1 (by decide)).1,
   (claim_C5 Nat loadsLen "x\x7d".data "ab".data [] 'a').2.1 (by decide)
     (by decide) (by decide) (by decide) (by decide) (by decide),
   (claim_C5 Nat loadsLen [] [] "no braces".data ' ').2.2 (by decide)⟩

/- ### Claim C7: validation of the parsed selection result -/

/-- Claim C7: within the post-parse validation of `main`, failure occurs iff
`top_papers` is not list-shaped; a non-list `general_trends` is coerced to a
single-element list of its string form; and `top_papers` is truncated to its
first 5 entries, however many were supplied. -/
theorem claim_C7 (kvs : List (String × JVal)) :
    ((validateAi kvs).isSome = true
       ↔ (dget kvs "top_papers" (JVal.jarr [])).isArr = true) ∧
    (∀ xs, dget kvs "top_papers" (JVal.jarr []) = JVal.jarr xs →
       ∃ res, validateAi kvs = some res ∧
         res.top_papers = xs.take 5 ∧
         ((dget kvs "general_trends" (JVal.jarr [])).isArr = false →
            res.trends
              = [JVal.jstr (pyStr (dget kvs "general_trends" (JVal.jarr [])))]) ∧
         (∀ ys, dget kvs "general_trends" (JVal.jarr []) = JVal.jarr ys →
            res.trends = ys)) := by
  constructor
  · simp only [validateAi]
    cases htp : dget kvs "top_papers" (JVal.jarr []) <;>
      simp [JVal.isArr]
  · intro xs htp
    simp only [validateAi]
    rw [htp]
    refine ⟨_, rfl, rfl, ?_, ?_⟩
    · intro hna
      cases htr : dget kvs "general_trends" (JVal.jarr []) with
      | jnull => rfl
      | jbool b => rfl
      | jnum n => rfl
      | jstr s => rfl
      | jarr ys =>
        rw [htr] at hna
        simp [JVal.isArr] at hna
      | jobj o => rfl
    · intro ys htr
      rw [htr]

/-- Witness for C7: a 7-entry `top_papers` with string `general_trends`
validates (truncated to 5), and a string-shaped `top_papers` is rejected. -/
theorem claim_C7_witness :
    (validateAi kvsW).isSome = true ∧ ¬ (validateAi kvsBad).isSome = true ∧
    resW.top_papers = xsW.take 5 := by
  refine ⟨(claim_C7 kvsW).1.mpr rfl, ?_, ?_⟩
  · intro h
    have h2 := (claim_C7 kvsBad).1.mp h
    exact absurd h2 (by decide)
  · obtain ⟨res, h1, h2, _, _⟩ := (claim_C7 kvsW).2 xsW rfl
    have h3 : validateAi kvsW = some resW := rfl
    have hres : res = resW := Option.some.inj (h1.symm.trans h3)
    rw [← hres]
    exact h2

/- ### Claim C6: HTML escaping of rendered content -/

theorem escChar_no_angle (c : Char) : '<' ∉ escChar c ∧ '>' ∉ escChar c := by
  rw [escChar]
  by_cases h1 : c = '&'
  · rw [if_pos h1]; exact ⟨by decide, by decide⟩
  · rw [if_neg h1]
    by_cases h2 : c = '<'
    · rw [if_pos h2]; exact ⟨by decide, by decide⟩
    · rw [if_neg h2]
      by_cases h3 : c = '>'
      · rw [if_pos h3]; exact ⟨by decide, by decide⟩
      · rw [if_neg h3]
        by_cases h4 : c = '"'
        · rw [if_pos h4]; exact ⟨by decide, by decide⟩
        · rw [if_neg h4]
          by_cases h5 : c = '\''
          · rw [if_pos h5]; exact ⟨by decide, by decide⟩
          · rw [if_neg h5]
            constructor
            · intro hm
              have : '<' = c := by simpa using hm
              exact h2 this.symm
            · intro hm
              have : '>' = c := by simpa using hm
              exact h3 this.symm

theorem prefixOfB_mem (p : List Char) : ∀ (l : List Char),
    prefixOfB p l = true → ∀ c ∈ p, c ∈ l := by
  induction p with
  | nil =>
    intro l _ c hc
    exact absurd hc (List.not_mem_nil c)
  | cons a as ih =>
    intro l h c hc
    cases l with
    | nil => exact absurd h (by simp [prefixOfB])
    | cons b bs =>
      rw [prefixOfB] at h
      obtain ⟨h1, h2⟩ := Bool.and_eq_true_iff.mp h
      have hab : a = b := eq_of_beq h1
      rcases List.mem_cons.mp hc with hca | hca
      · rw [hca, hab]
        exact List.mem_cons_self _ _
      · exact List.mem_cons_of_mem _ (ih bs h2 c hca)

theorem containsSub_mem (p : List Char) : ∀ (l : List Char),
    containsSub p l = true → ∀ c ∈ p, c ∈ l := by
  intro l
  induction l with
  | nil =>
    intro h c hc
    rw [containsSub] at h
    have hp : p = [] := by simpa [List.isEmpty_iff] using h
    rw [hp] at hc
    exact absurd hc (List.not_mem_nil c)
  | cons a t ih =>
    intro h c hc
    rw [containsSub] at h
    rcases Bool.or_eq_true_iff.mp h with h | h
    · exact prefixOfB_mem p _ h c hc
    · exact List.mem_cons_of_mem _ (ih h c hc)

theorem containsSub_false_of_not_mem (p l : List Char) (c : Char) (hc : c ∈ p)
    (hl : c ∉ l) : containsSub p l = false := by
  cases h : containsSub p l
  · rfl
  · exact absurd (containsSub_mem p l h c hc) hl

/-- Claim C6: `esc` (the rendering-side `html.escape`) never lets `<` or `>`
through, so no escaped string can contain `<script`; and in the concretely
rendered document whose title, authors, abstract, summary, bullets and topic
all attempt `<script>` injection, the sequence `<script` never occurs while
its escaped form `&lt;script&gt;` does. -/
theorem claim_C6 :
    (∀ s : String, '<' ∉ (esc s).data ∧ '>' ∉ (esc s).data ∧
       containsSub "<script".data (esc s).data = false) ∧
    containsSub "<script".data hostileDoc.data = false ∧
    containsSub "&lt;script&gt;".data hostileDoc.data = true := by
  refine ⟨?_, by decide, by decide⟩
  intro s
  have hlt : '<' ∉ (esc s).data := by
    intro hmem
    obtain ⟨a, _, hin⟩ := List.mem_flatMap.mp hmem
    exact (escChar_no_angle a).1 hin
  have hgt : '>' ∉ (esc s).data := by
    intro hmem
    obtain ⟨a, _, hin⟩ := List.mem_flatMap.mp hmem
    exact (escChar_no_angle a).2 hin
  exact ⟨hlt, hgt, containsSub_false_of_not_mem _ _ '<' (by decide) hlt⟩

